import Mathlib

/-!
# Retention enforcement service and TOML size codec

A shallow embedding of

* `services/retention/service.go`: `Service.Open`, `Service.Close` and the
  sweep executed by `Service.run` on every tick;
* `toml/toml.go`: `Size.UnmarshalText`.

Collaborators (`MetaClient`, `TSDBStore`) are interfaces in the source; here
they are arbitrary state transformers over an arbitrary world type, so every
theorem quantifies over every behaviour (and every failure pattern) they can
show.
-/

set_option autoImplicit false

namespace Retention

/-! ## Data model (package `meta`, referenced by the service) -/

/-- Modelled from the spec: `meta.ShardInfo` is declared outside the provided
sources; the service reads only its `ID` (a `uint64`). -/
structure ShardInfo where
  ID : Nat
deriving DecidableEq, Repr

/-- Modelled from the spec: `meta.ShardGroupInfo` is declared outside the
provided sources. A shard group has a unique identifier, an end time and its
shards; the service reads `ID` and `Shards`. -/
structure ShardGroupInfo where
  ID : Nat
  EndTime : Int
  Shards : List ShardInfo
deriving DecidableEq, Repr

/-- Modelled from the spec: `meta.RetentionPolicyInfo` is declared outside the
provided sources. A policy has a name, a duration and an ordered list of shard
groups. -/
structure RetentionPolicyInfo where
  Name : String
  Duration : Int
  ShardGroups : List ShardGroupInfo
deriving DecidableEq, Repr

/-- Modelled from the spec: `meta.DatabaseInfo` is declared outside the
provided sources. A database has a name and an ordered list of policies. -/
structure DatabaseInfo where
  Name : String
  RetentionPolicies : List RetentionPolicyInfo
deriving DecidableEq, Repr

/-- A Go `error` value returned by a collaborator; `Option Err` is the Go
`error` interface, `none` being `nil`. -/
structure Err where
  msg : String
deriving DecidableEq, Repr

/-- The value type of the map `deletedShardIDs` (`deletionInfo` in `run`). -/
structure deletionInfo where
  db : String
  rp : String
deriving DecidableEq, Repr

/-- The Go map `map[uint64]deletionInfo`, as an association list with unique
keys. -/
abbrev DeletionRecord := List (Nat × deletionInfo)

/-- Map assignment `m[k] = v`. -/
def DeletionRecord.set (m : DeletionRecord) (k : Nat) (v : deletionInfo) : DeletionRecord :=
  (k, v) :: m.filter (fun p => p.1 != k)

/-- Map read `v, ok := m[k]`. -/
def DeletionRecord.get? (m : DeletionRecord) (k : Nat) : Option deletionInfo :=
  m.lookup k

/-! ## Collaborators -/

/-- The two interfaces held by `Service` (`MetaClient`, `TSDBStore`) over a
world of type `σ`, plus the two things the sweep reads that are not
collaborator calls: the wall clock and the method
`RetentionPolicyInfo.ExpiredShardGroups` (declared in package `meta`, outside
the provided sources, and therefore a parameter).

`Now k` is the reading of `time.Now().UTC()` taken for the `k`-th retention
policy visited in a sweep. -/
structure Collaborators (σ : Type) where
  Databases : σ → List DatabaseInfo × σ
  DeleteShardGroup : String → String → Nat → σ → Option Err × σ
  PruneShardGroups : σ → Option Err × σ
  ShardIDs : σ → List Nat × σ
  DeleteShard : Nat → σ → Option Err × σ
  Now : Nat → Int
  ExpiredShardGroups : RetentionPolicyInfo → Int → List ShardGroupInfo

/-! ## Events of one sweep -/

/-- Everything observable a sweep does, in program order: collaborator calls
with their results, and log records (message and identifying fields; trace id
and elapsed time are not recorded).

`DeleteShardGroup db rp g err` is the call
`MetaClient.DeleteShardGroup(db, rp, g.ID)`; the event keeps the whole group
`g` the loop variable points at, so that the shards of the requested group can
be named. -/
inductive Event where
  | opStart
  | Databases (res : List DatabaseInfo)
  | DeleteShardGroup (db rp : String) (g : ShardGroupInfo) (err : Option Err)
  | logGroupFailed (err : Err) (db : String) (group : Nat) (rp : String)
  | logGroupDeleted (db : String) (group : Nat) (rp : String)
  | ShardIDs (res : List Nat)
  | DeleteShard (id : Nat) (err : Option Err)
  | logShardFailed (err : Err) (db : String) (shard : Nat) (rp : String)
  | logShardDeleted (db : String) (shard : Nat) (rp : String)
  | PruneShardGroups (err : Option Err)
  | logPruneFailed (err : Err)
  | opEnd
deriving DecidableEq, Repr

/-- The local state of one sweep. -/
structure SweepState (σ : Type) where
  world : σ
  trace : List Event
  clock : Nat
  deletedShardIDs : DeletionRecord

variable {σ : Type}

/-! ## The sweep (body of `case <-ticker.C` in `Service.run`) -/

/-- Lines 104-106: record every shard of a deleted group. -/
def recordShards (db rp : String) (m : DeletionRecord) (shards : List ShardInfo) :
    DeletionRecord :=
  shards.foldl (fun m sh => m.set sh.ID { db := db, rp := rp }) m

/-- Lines 96-106: body of the loop over the expired groups of one policy. -/
def deleteGroup (c : Collaborators σ) (d : DatabaseInfo) (r : RetentionPolicyInfo)
    (st : SweepState σ) (g : ShardGroupInfo) : SweepState σ :=
  match c.DeleteShardGroup d.Name r.Name g.ID st.world with
  | (some err, w) =>
    { st with
      world := w
      trace := st.trace ++
        [Event.DeleteShardGroup d.Name r.Name g (some err),
         Event.logGroupFailed err d.Name g.ID r.Name] }
  | (none, w) =>
    { st with
      world := w
      trace := st.trace ++
        [Event.DeleteShardGroup d.Name r.Name g none,
         Event.logGroupDeleted d.Name g.ID r.Name]
      deletedShardIDs := recordShards d.Name r.Name st.deletedShardIDs g.Shards }

/-- Lines 94-108: body of the loop over the policies of one database. -/
def sweepPolicy (c : Collaborators σ) (d : DatabaseInfo) (st : SweepState σ)
    (r : RetentionPolicyInfo) : SweepState σ :=
  (c.ExpiredShardGroups r (c.Now st.clock)).foldl (deleteGroup c d r)
    { st with clock := st.clock + 1 }

/-- Lines 93-109: body of the loop over the databases. -/
def sweepDatabase (c : Collaborators σ) (st : SweepState σ) (d : DatabaseInfo) :
    SweepState σ :=
  d.RetentionPolicies.foldl (sweepPolicy c d) st

/-- Lines 113-119: body of the loop over the locally stored shard ids. -/
def deleteLocal (c : Collaborators σ) (st : SweepState σ) (id : Nat) : SweepState σ :=
  match st.deletedShardIDs.get? id with
  | some info =>
    match c.DeleteShard id st.world with
    | (some err, w) =>
      { st with
        world := w
        trace := st.trace ++
          [Event.DeleteShard id (some err), Event.logShardFailed err info.db id info.rp] }
    | (none, w) =>
      { st with
        world := w
        trace := st.trace ++
          [Event.DeleteShard id none, Event.logShardDeleted info.db id info.rp] }
  | none => st

/-- Lines 92-109: the logical-deletion phase. -/
def groupPhase (c : Collaborators σ) (st : SweepState σ) : SweepState σ :=
  match c.Databases st.world with
  | (dbs, w) =>
    dbs.foldl (sweepDatabase c)
      { st with world := w, trace := st.trace ++ [Event.Databases dbs] }

/-- Lines 111-120: the physical-deletion phase. -/
def shardPhase (c : Collaborators σ) (st : SweepState σ) : SweepState σ :=
  match c.ShardIDs st.world with
  | (ids, w) =>
    ids.foldl (deleteLocal c)
      { st with world := w, trace := st.trace ++ [Event.ShardIDs ids] }

/-- Lines 122-126: prune and the end-of-operation log record. -/
def prunePhase (c : Collaborators σ) (st : SweepState σ) : SweepState σ :=
  match c.PruneShardGroups st.world with
  | (some err, w) =>
    { st with
      world := w
      trace := st.trace ++
        [Event.PruneShardGroups (some err), Event.logPruneFailed err, Event.opEnd] }
  | (none, w) =>
    { st with
      world := w
      trace := st.trace ++ [Event.PruneShardGroups none, Event.opEnd] }

/-- Lines 82-126: one sweep, started in world `w`, with a fresh deletion
record. -/
def sweep (c : Collaborators σ) (w : σ) : SweepState σ :=
  prunePhase c (shardPhase c (groupPhase c
    { world := w, trace := [Event.opStart], clock := 0, deletedShardIDs := [] }))

/-! ## Reading a trace -/

/-- One `MetaClient.DeleteShardGroup` call: its arguments (the group id being
`g.ID`) and its result. -/
structure GroupCall where
  db : String
  rp : String
  g : ShardGroupInfo
  err : Option Err
deriving DecidableEq, Repr

/-- The `(database, policy, group id)` triple a call was made with. -/
def GroupCall.request (x : GroupCall) : String × String × Nat := (x.db, x.rp, x.g.ID)

/-- The enumerated candidate a call was made for. -/
def GroupCall.candidate (x : GroupCall) : String × String × ShardGroupInfo :=
  (x.db, x.rp, x.g)

/-- One `TSDBStore.DeleteShard` call: its argument and its result. -/
structure ShardCall where
  id : Nat
  err : Option Err
deriving DecidableEq, Repr

/-- The `DeleteShardGroup` calls of a trace, in order. -/
def groupCalls (tr : List Event) : List GroupCall :=
  tr.filterMap fun
    | Event.DeleteShardGroup db rp g err => some { db := db, rp := rp, g := g, err := err }
    | _ => none

/-- The `DeleteShard` calls of a trace, in order. -/
def shardCalls (tr : List Event) : List ShardCall :=
  tr.filterMap fun
    | Event.DeleteShard id err => some { id := id, err := err }
    | _ => none

/-- The five collaborator methods. -/
inductive CallKind where
  | Databases
  | DeleteShardGroup
  | ShardIDs
  | DeleteShard
  | PruneShardGroups
deriving DecidableEq, Repr

/-- The collaborator method an event is a call of, if it is one. -/
def Event.call? : Event → Option CallKind
  | Event.Databases _ => some CallKind.Databases
  | Event.DeleteShardGroup _ _ _ _ => some CallKind.DeleteShardGroup
  | Event.ShardIDs _ => some CallKind.ShardIDs
  | Event.DeleteShard _ _ => some CallKind.DeleteShard
  | Event.PruneShardGroups _ => some CallKind.PruneShardGroups
  | _ => none

/-- The sequence of collaborator methods called in a trace. -/
def collaboratorCalls (tr : List Event) : List CallKind :=
  tr.filterMap Event.call?

/-- The ids of the shards of a group. -/
def shardIDsOf (g : ShardGroupInfo) : List Nat := g.Shards.map (·.ID)

/-! ## The enumeration of expired groups, as the specification words it

For each database and each of its retention policies in order, the groups
returned by `ExpiredShardGroups`; the `k`-th policy visited is asked at the
clock reading `Now k`. -/

/-- Expired groups of the policies `rs` of database `d`, the first of which is
the `k`-th policy visited. -/
def expiredOfPolicies (c : Collaborators σ) (d : DatabaseInfo) :
    Nat → List RetentionPolicyInfo → List (String × String × ShardGroupInfo)
  | _, [] => []
  | k, r :: rs =>
    (c.ExpiredShardGroups r (c.Now k)).map (fun g => (d.Name, r.Name, g)) ++
      expiredOfPolicies c d (k + 1) rs

/-- Expired groups of the databases `ds`, the first policy of which is the
`k`-th policy visited. -/
def expiredOfDatabases (c : Collaborators σ) :
    Nat → List DatabaseInfo → List (String × String × ShardGroupInfo)
  | _, [] => []
  | k, d :: ds =>
    expiredOfPolicies c d k d.RetentionPolicies ++
      expiredOfDatabases c (k + d.RetentionPolicies.length) ds

/-- Every expired group of a metadata snapshot, with its database and policy
names, in enumeration order. -/
def expiredGroups (c : Collaborators σ) (dbs : List DatabaseInfo) :
    List (String × String × ShardGroupInfo) :=
  expiredOfDatabases c 0 dbs

/-! ## Bookkeeping used to describe what a phase emits -/

/-- The events the logical-deletion loop emits for a list of calls. -/
def groupEventsOf : List GroupCall → List Event
  | [] => []
  | x :: xs =>
    (match x.err with
      | some err =>
        [Event.DeleteShardGroup x.db x.rp x.g (some err),
         Event.logGroupFailed err x.db x.g.ID x.rp]
      | none =>
        [Event.DeleteShardGroup x.db x.rp x.g none,
         Event.logGroupDeleted x.db x.g.ID x.rp]) ++ groupEventsOf xs

/-- The deletion record after a list of calls: the shards of every group whose
call returned no error. -/
def recordOf : DeletionRecord → List GroupCall → DeletionRecord
  | m, [] => m
  | m, x :: xs =>
    match x.err with
    | some _ => recordOf m xs
    | none => recordOf (recordShards x.db x.rp m x.g.Shards) xs

/-- The events the physical-deletion loop emits for a list of calls, read
against the deletion record `m`. -/
def shardEventsOf (m : DeletionRecord) : List ShardCall → List Event
  | [] => []
  | x :: xs =>
    (match m.get? x.id, x.err with
      | some info, some err =>
        [Event.DeleteShard x.id (some err), Event.logShardFailed err info.db x.id info.rp]
      | some info, none =>
        [Event.DeleteShard x.id none, Event.logShardDeleted info.db x.id info.rp]
      | none, _ => []) ++ shardEventsOf m xs

/-- What a run of the logical-deletion loops leaves behind, seen from the state
`st` it started in: the calls `xs` it made, for the candidates `cands`, over
`n` policies. -/
def GroupRun (st st1 : SweepState σ) (xs : List GroupCall)
    (cands : List (String × String × ShardGroupInfo)) (n : Nat) : Prop :=
  st1.trace = st.trace ++ groupEventsOf xs ∧
  xs.map GroupCall.candidate = cands ∧
  st1.deletedShardIDs = recordOf st.deletedShardIDs xs ∧
  st1.clock = st.clock + n

/-- What a run of the physical-deletion loop over `ids` leaves behind, seen
from the state `st` it started in: the calls `ys` it made. -/
def ShardRun (st st1 : SweepState σ) (ys : List ShardCall) (ids : List Nat) : Prop :=
  st1.trace = st.trace ++ shardEventsOf st.deletedShardIDs ys ∧
  ys.map (·.id) = ids.filter (fun id => (st.deletedShardIDs.get? id).isSome) ∧
  st1.deletedShardIDs = st.deletedShardIDs

/-- The events of the prune step and the end of the operation. -/
def pruneEventsOf : Option Err → List Event
  | some err => [Event.PruneShardGroups (some err), Event.logPruneFailed err, Event.opEnd]
  | none => [Event.PruneShardGroups none, Event.opEnd]

/-! ## The service: `NewService`, `Open`, `Close` -/

/-- Modelled from the spec: `Config` is declared outside the provided sources;
it holds an enabled flag and a check interval (a duration). -/
structure Config where
  Enabled : Bool
  CheckInterval : Int
deriving DecidableEq, Repr

/-- A `chan struct{}` that is only ever closed, never sent on. -/
structure Chan where
  closed : Bool
deriving DecidableEq, Repr

/-- The `Service` struct together with the part of the process it acts on.
`config`, `wg` (the counter of the `sync.WaitGroup`) and `done` (`none` is
`nil`) are the fields of the source; the collaborators are passed to the
operations as `Collaborators`. `workers` counts the goroutines executing the
loop of `run`, `launched` counts the `go` statements executed so far,
`panicked` tells that an unrecovered panic has killed the process, `world` is
the state the collaborators act on and `trace` collects the events of all
sweeps. -/
structure Service (σ : Type) where
  config : Config
  wg : Nat
  done : Option Chan
  workers : Nat
  launched : Nat
  panicked : Bool
  world : σ
  trace : List Event

/-- The constructor `NewService(c)`, in a process whose collaborators are in
state `w`. -/
def NewService (c : Config) (w : σ) : Service σ :=
  { config := c, wg := 0, done := none, workers := 0, launched := 0, panicked := false,
    world := w, trace := [] }

/-- The goroutine started by `Open` enters `run` (lines 73-75):
`time.NewTicker` panics when the interval is not positive; the deferred
`s.wg.Done()` runs and the unrecovered panic kills the process. With a positive
interval the goroutine reaches the loop and waits in the `select`. -/
def Service.startRun (s : Service σ) : Service σ :=
  if s.config.CheckInterval ≤ 0 then { s with wg := s.wg - 1, panicked := true }
  else { s with workers := s.workers + 1 }

/-- The method `Service.Open` (lines 41-52), with the value it returns. The
first statement of the goroutine it starts is taken together with the `go`
statement. -/
def Service.Open (s : Service σ) : Service σ × Option Err :=
  if !s.config.Enabled || s.done.isSome then (s, none)
  else
    (Service.startRun
      { s with
        done := some { closed := false }
        wg := s.wg + 1
        launched := s.launched + 1 }, none)

/-- The method `Service.Close` (lines 55-66), with the value it returns; `none` when the
call never returns. After `close(s.done)` every goroutine executing `run`
takes `case <-s.done`, returns and runs its deferred `s.wg.Done()`;
`s.wg.Wait()` returns once the counter is zero. -/
def Service.Close (s : Service σ) : Option (Service σ × Option Err) :=
  if !s.config.Enabled || s.done.isNone then some (s, none)
  else
    let closed : Service σ := { s with done := some { closed := true } }
    let exited : Service σ := { closed with wg := closed.wg - closed.workers, workers := 0 }
    if exited.wg = 0 then some ({ exited with done := none }, none) else none

/-- The ticker of a goroutine executing the loop of `run` fires: it runs one
sweep (`case <-ticker.C`, lines 81-126). Without such a goroutine nothing
happens. -/
def Service.tick (c : Collaborators σ) (s : Service σ) : Service σ :=
  if s.workers = 0 then s
  else
    { s with
      world := (sweep c s.world).world
      trace := s.trace ++ (sweep c s.world).trace }

/-- What can happen to a service: a call of `Open`, a call of `Close`, or a
tick of a worker. -/
inductive Op where
  | Open
  | Close
  | tick
deriving DecidableEq, Repr

/-- Perform the operations one after another, collecting the values returned
by `Open` and `Close`; `none` when a call never returns, either because it
blocks for ever or because a panic has killed the process before it. -/
def exec (c : Collaborators σ) : List Op → Service σ → Option (Service σ × List (Option Err))
  | [], s => some (s, [])
  | op :: ops, s =>
    if s.panicked then none
    else
      match op with
      | Op.Open =>
        (exec c ops (Service.Open s).1).map fun r => (r.1, (Service.Open s).2 :: r.2)
      | Op.Close =>
        match Service.Close s with
        | none => none
        | some (s1, ret) => (exec c ops s1).map fun r => (r.1, ret :: r.2)
      | Op.tick => exec c ops (Service.tick c s)

/-- The bookkeeping invariant of a service: the `WaitGroup` counter is the
number of goroutines executing `run`, there is at most one, there is one
exactly when `done` is not `nil`, and the process is alive. -/
def Service.Sound (s : Service σ) : Prop :=
  s.wg = s.workers ∧ s.workers ≤ 1 ∧ (s.workers = 1 ↔ s.done.isSome = true) ∧
    s.panicked = false

/-- Whether the service is running after a sequence of operations, `b` telling
whether it was running before: `Open` leaves it running, `Close` leaves it
stopped. -/
def runningAfter : List Op → Bool → Bool
  | [], b => b
  | Op.Open :: ops, _ => runningAfter ops true
  | Op.Close :: ops, _ => runningAfter ops false
  | Op.tick :: ops, b => runningAfter ops b

/-- The number of `Open` calls of a sequence of operations that are made while
the service is stopped, `b` telling whether it was running before. -/
def launchesOf : List Op → Bool → Nat
  | [], _ => 0
  | Op.Open :: ops, b => (if b then 0 else 1) + launchesOf ops true
  | Op.Close :: ops, _ => launchesOf ops false
  | Op.tick :: ops, b => launchesOf ops b

/-! ## A store that removes a shard exactly when `DeleteShard` succeeds -/

/-- The collaborators `c` keep the local shard set `stored`: `ShardIDs` reads
it, a `DeleteShard` that returns no error removes the shard, a `DeleteShard`
that returns an error removes nothing, and no other call touches it. -/
structure StoreLaw (c : Collaborators σ) (stored : σ → List Nat) : Prop where
  shardIDs : ∀ w, (c.ShardIDs w).1 = stored w ∧ stored (c.ShardIDs w).2 = stored w
  deleteOk : ∀ id w, (c.DeleteShard id w).1 = none →
    stored (c.DeleteShard id w).2 = (stored w).filter (fun s => s != id)
  deleteErr : ∀ id w e, (c.DeleteShard id w).1 = some e →
    stored (c.DeleteShard id w).2 = stored w
  databases : ∀ w, stored (c.Databases w).2 = stored w
  deleteShardGroup : ∀ db rp id w, stored (c.DeleteShardGroup db rp id w).2 = stored w
  pruneShardGroups : ∀ w, stored (c.PruneShardGroups w).2 = stored w

/-- The ids of the shards of all groups of all policies of a database. -/
def shardsOfDatabase (d : DatabaseInfo) : List Nat :=
  d.RetentionPolicies.flatMap fun r => r.ShardGroups.flatMap shardIDsOf

/-! ## A concrete node, used to run the sweep on explicit data -/

/-- A node with in-memory metadata and storage. `failGroups` are the group ids
whose logical deletion fails; `failShards` are the shard ids whose next
physical deletion fails (once). -/
structure Node where
  dbs : List DatabaseInfo
  stored : List Nat
  failGroups : List Nat
  failShards : List Nat
deriving DecidableEq, Repr

/-- Metadata after the logical deletion of group `id` of policy `rp` of
database `db`: the group is no longer listed. -/
def Node.dropGroup (dbs : List DatabaseInfo) (db rp : String) (id : Nat) : List DatabaseInfo :=
  dbs.map fun d =>
    if d.Name = db then
      { d with
        RetentionPolicies := d.RetentionPolicies.map fun r =>
          if r.Name = rp then { r with ShardGroups := r.ShardGroups.filter (fun g => g.ID != id) }
          else r }
    else d

/-- Modelled from the spec: `ExpiredShardGroups` is declared outside the
provided sources; a shard group is expired when the current time exceeds its
end time plus the retention duration of the policy. -/
def Node.expired (r : RetentionPolicyInfo) (t : Int) : List ShardGroupInfo :=
  r.ShardGroups.filter fun g => g.EndTime + r.Duration < t

/-- The collaborators of a `Node`, with a clock that always reads `now`. -/
def Node.collaborators (now : Int) : Collaborators Node where
  Databases w := (w.dbs, w)
  DeleteShardGroup db rp id w :=
    if id ∈ w.failGroups then (some { msg := "metadata unavailable" }, w)
    else (none, { w with dbs := Node.dropGroup w.dbs db rp id })
  PruneShardGroups w := (none, w)
  ShardIDs w := (w.stored, w)
  DeleteShard id w :=
    if id ∈ w.failShards then
      (some { msg := "shard busy" }, { w with failShards := w.failShards.erase id })
    else (none, { w with stored := w.stored.filter (fun s => s != id) })
  Now _ := now
  ExpiredShardGroups := Node.expired

/-- Group `g1` of the scenario: shards `s1 = 1` and `s2 = 2`, ended at time 10. -/
def g1 : ShardGroupInfo := { ID := 1, EndTime := 10, Shards := [{ ID := 1 }, { ID := 2 }] }

/-- Group `g2` of the scenario: shard `s3 = 3`, ending at time 90. -/
def g2 : ShardGroupInfo := { ID := 2, EndTime := 90, Shards := [{ ID := 3 }] }

/-- Database `db1` with policy `rp1` (duration 50) holding `g1`. -/
def db1 : DatabaseInfo :=
  { Name := "db1", RetentionPolicies := [{ Name := "rp1", Duration := 50, ShardGroups := [g1] }] }

/-- Database `db2` with policy `rp2` (duration 50) holding `g2`. -/
def db2 : DatabaseInfo :=
  { Name := "db2", RetentionPolicies := [{ Name := "rp2", Duration := 50, ShardGroups := [g2] }] }

/-- The scenario node: both databases, shards 1, 2 and 3 stored locally. At
time 100 group `g1` is expired and `g2` is not. -/
def scenario (failGroups failShards : List Nat) : Node :=
  { dbs := [db1, db2], stored := [1, 2, 3], failGroups := failGroups, failShards := failShards }

/-- A group of `db2` that is not expired at time 100 and lists shard 2, which
`g1` of `db1` lists too, and shard 3. -/
def g3 : ShardGroupInfo := { ID := 3, EndTime := 90, Shards := [{ ID := 2 }, { ID := 3 }] }

/-- Database `db2` with policy `rp2` (duration 50) holding `g3`. -/
def db2shared : DatabaseInfo :=
  { Name := "db2", RetentionPolicies := [{ Name := "rp2", Duration := 50, ShardGroups := [g3] }] }

/-- A node on which shard id 2 is listed both in `db1` and in `db2`. -/
def sharedScenario : Node :=
  { dbs := [db1, db2shared], stored := [1, 2, 3], failGroups := [], failShards := [] }

end Retention

namespace Toml

/-! ## `Size.UnmarshalText` (package `toml`) -/

/-- A Go `byte`. -/
abbrev Byte := Fin 256

/-- The largest `uint64`, `math.MaxUint64`. -/
def MaxUint64 : Nat := 18446744073709551615

/-- The library function `unicode.IsDigit(rune(b))` for a byte `b`: for runes
up to `MaxLatin1` it tests that the rune lies between the digits 0 and 9. -/
def IsDigit (b : Byte) : Bool := decide (48 ≤ b.val) && decide (b.val ≤ 57)

/-- The two errors of `strconv.ParseUint`. -/
inductive NumError where
  | ErrSyn
  | ErrRange
deriving DecidableEq, Repr

/-- The function `lower(c)` of package `strconv`: `c | 0x20`. -/
def lower (c : Byte) : Nat := c.val ||| 32

/-- The digit value the loop of `strconv.ParseUint` assigns to a byte, if
any (the `switch` on `c`; the underscore is a separator only for base 0). -/
def digitOf (c : Byte) : Option Nat :=
  if 48 ≤ c.val ∧ c.val ≤ 57 then some (c.val - 48)
  else if 97 ≤ lower c ∧ lower c ≤ 122 then some (lower c - 97 + 10)
  else none

/-- The loop of `strconv.ParseUint(s, 10, 64)` over the remaining bytes, with
accumulator `n` (a `uint64`): `cutoff` is `maxUint64/10 + 1` and `maxVal` is
`1<<64 - 1`. -/
def parseUintLoop : List Byte → Nat → Except NumError Nat
  | [], n => Except.ok n
  | c :: cs, n =>
    match digitOf c with
    | none => Except.error NumError.ErrSyn
    | some d =>
      if d ≥ 10 then Except.error NumError.ErrSyn
      else if n ≥ MaxUint64 / 10 + 1 then Except.error NumError.ErrRange
      else
        let n10 := (n * 10) % 2 ^ 64
        let n1 := (n10 + d) % 2 ^ 64
        if n1 < n10 ∨ n1 > MaxUint64 then Except.error NumError.ErrRange
        else parseUintLoop cs n1

/-- The call `strconv.ParseUint(s, 10, 64)` of the Go standard library. -/
def ParseUint (s : List Byte) : Except NumError Nat :=
  if s = [] then Except.error NumError.ErrSyn else parseUintLoop s 0

/-- The errors `Size.UnmarshalText` returns. -/
inductive SizeError where
  | empty
  | unknownSuffix (suffix : Byte)
  | invalid
  | overflow
deriving DecidableEq, Repr

/-- Lines 65-77: the multiplier and the numeric part of the text, given its
last byte. -/
def unitOf (text : List Byte) (suffix : Byte) : Except SizeError (Nat × List Byte) :=
  if !IsDigit suffix then
    if suffix = 107 ∨ suffix = 75 then Except.ok (1 <<< 10, text.dropLast)
    else if suffix = 109 ∨ suffix = 77 then Except.ok (1 <<< 20, text.dropLast)
    else if suffix = 103 ∨ suffix = 71 then Except.ok (1 <<< 30, text.dropLast)
    else Except.error (SizeError.unknownSuffix suffix)
  else Except.ok (1, text)

/-- The method `(*Size).UnmarshalText` (lines 51-93): the value of `*s` after the call
and the error returned, `s` being the value of `*s` before. -/
def Size.UnmarshalText (s : Nat) (text : List Byte) : Nat × Option SizeError :=
  match text.getLast? with
  | none => (s, some SizeError.empty)
  | some suffix =>
    match unitOf text suffix with
    | Except.error e => (s, some e)
    | Except.ok (mult, sizeText) =>
      match ParseUint sizeText with
      | Except.error _ => (s, some SizeError.invalid)
      | Except.ok size =>
        if MaxUint64 / mult < size then (s, some SizeError.overflow)
        else ((size * mult) % 2 ^ 64, none)

/-- The number a string of decimal digits denotes, continuing from `n`. -/
def decimalFrom (n : Nat) (ds : List Byte) : Nat :=
  ds.foldl (fun n c => 10 * n + (c.val - 48)) n

/-- The number a string of decimal digits denotes. -/
def decimal (ds : List Byte) : Nat := decimalFrom 0 ds

end Toml

/-! # Theorems -/

namespace Retention

variable {σ : Type}

/-! ## The deletion record as a map -/

theorem lookup_filter_ne (m : DeletionRecord) (k j : Nat) (h : j ≠ k) :
    List.lookup j (m.filter (fun p => p.1 != k)) = List.lookup j m := by
  induction m with
  | nil => rfl
  | cons p m ih =>
    obtain ⟨a, b⟩ := p
    by_cases hak : a = k
    · subst hak
      have h1 : (j == a) = false := by simpa using h
      simp [List.filter_cons, List.lookup_cons, h1, ih]
    · have h1 : (a != k) = true := by simpa using hak
      simp only [List.filter_cons, h1, if_true, List.lookup_cons, ih]

theorem get?_set (m : DeletionRecord) (k j : Nat) (v : deletionInfo) :
    (m.set k v).get? j = if j = k then some v else m.get? j := by
  unfold DeletionRecord.set DeletionRecord.get?
  by_cases h : j = k
  · subst h
    simp [List.lookup_cons]
  · have h1 : (j == k) = false := by simpa using h
    simp only [List.lookup_cons, h1, if_neg h]
    exact lookup_filter_ne m k j h

theorem get?_recordShards (db rp : String) (shards : List ShardInfo) (m : DeletionRecord)
    (id : Nat) :
    (recordShards db rp m shards).get? id =
      if id ∈ shards.map (·.ID) then some { db := db, rp := rp } else m.get? id := by
  unfold recordShards
  induction shards using List.reverseRecOn with
  | nil => simp
  | append_singleton shards sh ih =>
    rw [List.foldl_append]
    simp only [List.foldl_cons, List.foldl_nil, get?_set, ih]
    by_cases h1 : id = sh.ID
    · simp [h1]
    · by_cases h2 : id ∈ shards.map (·.ID)
      · simp [h1, h2]
      · have h3 : ¬ ∃ a ∈ shards, a.ID = id := by simpa using h2
        simp [h1, h3]

/-! ## What the bookkeeping lists contain -/

theorem groupEventsOf_append (xs ys : List GroupCall) :
    groupEventsOf (xs ++ ys) = groupEventsOf xs ++ groupEventsOf ys := by
  induction xs with
  | nil => rfl
  | cons x xs ih => simp [groupEventsOf, ih]

theorem recordOf_append (m : DeletionRecord) (xs ys : List GroupCall) :
    recordOf m (xs ++ ys) = recordOf (recordOf m xs) ys := by
  induction xs generalizing m with
  | nil => rfl
  | cons x xs ih =>
    cases hx : x.err <;> simp [recordOf, hx, ih]

theorem shardEventsOf_append (m : DeletionRecord) (xs ys : List ShardCall) :
    shardEventsOf m (xs ++ ys) = shardEventsOf m xs ++ shardEventsOf m ys := by
  induction xs with
  | nil => rfl
  | cons x xs ih => simp [shardEventsOf, ih]

theorem groupCalls_append (a b : List Event) :
    groupCalls (a ++ b) = groupCalls a ++ groupCalls b := by
  simp [groupCalls, List.filterMap_append]

theorem shardCalls_append (a b : List Event) :
    shardCalls (a ++ b) = shardCalls a ++ shardCalls b := by
  simp [shardCalls, List.filterMap_append]

theorem collaboratorCalls_append (a b : List Event) :
    collaboratorCalls (a ++ b) = collaboratorCalls a ++ collaboratorCalls b := by
  simp [collaboratorCalls, List.filterMap_append]

theorem groupCalls_groupEventsOf (xs : List GroupCall) :
    groupCalls (groupEventsOf xs) = xs := by
  induction xs with
  | nil => rfl
  | cons x xs ih =>
    obtain ⟨db, rp, g, err⟩ := x
    cases err with
    | none =>
      simp only [groupEventsOf, groupCalls_append, ih]
      simp [groupCalls]
    | some e =>
      simp only [groupEventsOf, groupCalls_append, ih]
      simp [groupCalls]

theorem shardCalls_groupEventsOf (xs : List GroupCall) :
    shardCalls (groupEventsOf xs) = [] := by
  induction xs with
  | nil => rfl
  | cons x xs ih =>
    cases hx : x.err <;>
      simp only [groupEventsOf, hx, shardCalls_append, ih] <;> simp [shardCalls]

theorem collaboratorCalls_groupEventsOf (xs : List GroupCall) :
    collaboratorCalls (groupEventsOf xs) =
      List.replicate xs.length CallKind.DeleteShardGroup := by
  induction xs with
  | nil => rfl
  | cons x xs ih =>
    cases hx : x.err <;>
      simp only [groupEventsOf, hx, collaboratorCalls_append, ih] <;>
      simp [collaboratorCalls, Event.call?, List.replicate_succ]

theorem groupCalls_shardEventsOf (m : DeletionRecord) (ys : List ShardCall) :
    groupCalls (shardEventsOf m ys) = [] := by
  induction ys with
  | nil => rfl
  | cons y ys ih =>
    cases hm : m.get? y.id <;> cases hy : y.err <;>
      simp only [shardEventsOf, hm, hy, groupCalls_append, ih] <;> simp [groupCalls]

theorem shardCalls_shardEventsOf (m : DeletionRecord) (ys : List ShardCall)
    (h : ∀ y ∈ ys, (m.get? y.id).isSome) :
    shardCalls (shardEventsOf m ys) = ys := by
  induction ys with
  | nil => rfl
  | cons y ys ih =>
    have hy := h y (List.mem_cons_self _ _)
    have ih1 := ih (fun z hz => h z (List.mem_cons_of_mem _ hz))
    obtain ⟨id, err⟩ := y
    obtain ⟨info, hinfo⟩ := Option.isSome_iff_exists.mp hy
    simp only at hinfo
    cases err with
    | none =>
      simp only [shardEventsOf, hinfo, shardCalls_append, ih1]
      simp [shardCalls]
    | some e =>
      simp only [shardEventsOf, hinfo, shardCalls_append, ih1]
      simp [shardCalls]

theorem collaboratorCalls_shardEventsOf (m : DeletionRecord) (ys : List ShardCall)
    (h : ∀ y ∈ ys, (m.get? y.id).isSome) :
    collaboratorCalls (shardEventsOf m ys) =
      List.replicate ys.length CallKind.DeleteShard := by
  induction ys with
  | nil => rfl
  | cons y ys ih =>
    have hy := h y (List.mem_cons_self _ _)
    have ih1 := ih (fun z hz => h z (List.mem_cons_of_mem _ hz))
    obtain ⟨id, err⟩ := y
    obtain ⟨info, hinfo⟩ := Option.isSome_iff_exists.mp hy
    simp only at hinfo
    cases err with
    | none =>
      simp only [shardEventsOf, hinfo, collaboratorCalls_append, ih1]
      simp [collaboratorCalls, Event.call?, List.replicate_succ]
    | some e =>
      simp only [shardEventsOf, hinfo, collaboratorCalls_append, ih1]
      simp [collaboratorCalls, Event.call?, List.replicate_succ]

/-- A shard id is in the record built from a list of calls exactly when it was
there before or is the id of a shard of a group whose call returned no
error. -/
theorem get?_recordOf_isSome (xs : List GroupCall) (m : DeletionRecord) (id : Nat) :
    ((recordOf m xs).get? id).isSome ↔
      (m.get? id).isSome ∨ ∃ x ∈ xs, x.err = none ∧ id ∈ shardIDsOf x.g := by
  induction xs generalizing m with
  | nil => simp [recordOf]
  | cons x xs ih =>
    cases hx : x.err with
    | some e =>
      simp only [recordOf, hx, ih, List.mem_cons]
      constructor
      · rintro (h | ⟨y, hy, h⟩)
        · exact Or.inl h
        · exact Or.inr ⟨y, Or.inr hy, h⟩
      · rintro (h | ⟨y, hy | hy, h1, h2⟩)
        · exact Or.inl h
        · subst hy
          rw [hx] at h1
          cases h1
        · exact Or.inr ⟨y, hy, h1, h2⟩
    | none =>
      simp only [recordOf, hx, ih, List.mem_cons, get?_recordShards]
      constructor
      · rintro (h | ⟨y, hy, h⟩)
        · by_cases hmem : id ∈ x.g.Shards.map (·.ID)
          · exact Or.inr ⟨x, Or.inl rfl, hx, hmem⟩
          · rw [if_neg hmem] at h
            exact Or.inl h
        · exact Or.inr ⟨y, Or.inr hy, h⟩
      · rintro (h | ⟨y, hy | hy, h1, h2⟩)
        · by_cases hmem : id ∈ x.g.Shards.map (·.ID)
          · left; rw [if_pos hmem]; rfl
          · left; rw [if_neg hmem]; exact h
        · subst hy
          have h3 : id ∈ y.g.Shards.map (·.ID) := h2
          left
          rw [if_pos h3]; rfl
        · exact Or.inr ⟨y, hy, h1, h2⟩

/-! ## What each loop does -/

theorem deleteGroup_run (c : Collaborators σ) (d : DatabaseInfo) (r : RetentionPolicyInfo)
    (st : SweepState σ) (g : ShardGroupInfo) :
    ∃ x, GroupRun st (deleteGroup c d r st g) [x] [(d.Name, r.Name, g)] 0 := by
  unfold deleteGroup
  rcases h : c.DeleteShardGroup d.Name r.Name g.ID st.world with ⟨_ | e, w⟩
  · exact ⟨⟨d.Name, r.Name, g, none⟩, by simp [GroupRun, groupEventsOf, recordOf, GroupCall.candidate]⟩
  · exact ⟨⟨d.Name, r.Name, g, some e⟩, by simp [GroupRun, groupEventsOf, recordOf, GroupCall.candidate]⟩

theorem GroupRun.trans {st st1 st2 : SweepState σ} {xs ys : List GroupCall}
    {cs ds : List (String × String × ShardGroupInfo)} {n k : Nat}
    (h1 : GroupRun st st1 xs cs n) (h2 : GroupRun st1 st2 ys ds k) :
    GroupRun st st2 (xs ++ ys) (cs ++ ds) (n + k) := by
  obtain ⟨a1, a2, a3, a4⟩ := h1
  obtain ⟨b1, b2, b3, b4⟩ := h2
  refine ⟨?_, ?_, ?_, ?_⟩
  · rw [b1, a1, groupEventsOf_append, List.append_assoc]
  · rw [List.map_append, a2, b2]
  · rw [b3, a3, recordOf_append]
  · rw [b4, a4, Nat.add_assoc]

theorem foldl_deleteGroup_run (c : Collaborators σ) (d : DatabaseInfo)
    (r : RetentionPolicyInfo) (gs : List ShardGroupInfo) (st : SweepState σ) :
    ∃ xs, GroupRun st (gs.foldl (deleteGroup c d r) st) xs
      (gs.map fun g => (d.Name, r.Name, g)) 0 := by
  induction gs generalizing st with
  | nil => exact ⟨[], by simp [GroupRun, groupEventsOf, recordOf]⟩
  | cons g gs ih =>
    obtain ⟨x, hx⟩ := deleteGroup_run c d r st g
    obtain ⟨xs, hxs⟩ := ih (deleteGroup c d r st g)
    exact ⟨[x] ++ xs, by simpa using hx.trans hxs⟩

theorem sweepPolicy_run (c : Collaborators σ) (d : DatabaseInfo) (st : SweepState σ)
    (r : RetentionPolicyInfo) :
    ∃ xs, GroupRun st (sweepPolicy c d st r) xs
      ((c.ExpiredShardGroups r (c.Now st.clock)).map fun g => (d.Name, r.Name, g)) 1 := by
  unfold sweepPolicy
  obtain ⟨xs, h1, h2, h3, h4⟩ :=
    foldl_deleteGroup_run c d r (c.ExpiredShardGroups r (c.Now st.clock))
      { st with clock := st.clock + 1 }
  exact ⟨xs, h1, h2, h3, by simpa using h4⟩

theorem foldl_sweepPolicy_run (c : Collaborators σ) (d : DatabaseInfo)
    (rs : List RetentionPolicyInfo) (st : SweepState σ) :
    ∃ xs, GroupRun st (rs.foldl (sweepPolicy c d) st) xs
      (expiredOfPolicies c d st.clock rs) rs.length := by
  induction rs generalizing st with
  | nil => exact ⟨[], by simp [GroupRun, groupEventsOf, recordOf, expiredOfPolicies]⟩
  | cons r rs ih =>
    obtain ⟨xs, hxs⟩ := sweepPolicy_run c d st r
    obtain ⟨ys, hys⟩ := ih (sweepPolicy c d st r)
    have hclock : (sweepPolicy c d st r).clock = st.clock + 1 := hxs.2.2.2
    rw [hclock] at hys
    refine ⟨xs ++ ys, ?_⟩
    have := hxs.trans hys
    simpa [expiredOfPolicies, Nat.add_comm] using this

theorem foldl_sweepDatabase_run (c : Collaborators σ) (ds : List DatabaseInfo)
    (st : SweepState σ) :
    ∃ xs n, GroupRun st (ds.foldl (sweepDatabase c) st) xs
      (expiredOfDatabases c st.clock ds) n := by
  induction ds generalizing st with
  | nil => exact ⟨[], 0, by simp [GroupRun, groupEventsOf, recordOf, expiredOfDatabases]⟩
  | cons d ds ih =>
    obtain ⟨xs, hxs⟩ := foldl_sweepPolicy_run c d d.RetentionPolicies st
    obtain ⟨ys, n, hys⟩ := ih (sweepDatabase c st d)
    have hclock : (sweepDatabase c st d).clock = st.clock + d.RetentionPolicies.length :=
      hxs.2.2.2
    rw [hclock] at hys
    refine ⟨xs ++ ys, d.RetentionPolicies.length + n, ?_⟩
    have := @GroupRun.trans σ st (sweepDatabase c st d) _ _ _ _ _ _ _ hxs hys
    simpa [expiredOfDatabases] using this

theorem deleteLocal_run (c : Collaborators σ) (st : SweepState σ) (id : Nat) :
    ∃ ys, ShardRun st (deleteLocal c st id) ys [id] := by
  unfold deleteLocal
  cases hm : st.deletedShardIDs.get? id with
  | none => exact ⟨[], by simp [ShardRun, shardEventsOf, hm]⟩
  | some info =>
    rcases h : c.DeleteShard id st.world with ⟨_ | e, w⟩
    · exact ⟨[⟨id, none⟩], by simp [ShardRun, shardEventsOf, hm]⟩
    · exact ⟨[⟨id, some e⟩], by simp [ShardRun, shardEventsOf, hm]⟩

theorem foldl_deleteLocal_run (c : Collaborators σ) (ids : List Nat) (st : SweepState σ) :
    ∃ ys, ShardRun st (ids.foldl (deleteLocal c) st) ys ids := by
  induction ids generalizing st with
  | nil => exact ⟨[], by simp [ShardRun, shardEventsOf]⟩
  | cons id ids ih =>
    obtain ⟨xs, a1, a2, a3⟩ := deleteLocal_run c st id
    obtain ⟨ys, b1, b2, b3⟩ := ih (deleteLocal c st id)
    refine ⟨xs ++ ys, ?_, ?_, ?_⟩
    · rw [List.foldl_cons, b1, a1, a3, shardEventsOf_append, List.append_assoc]
    · rw [List.map_append, a2, b2, a3, ← List.filter_append]
      rfl
    · rw [List.foldl_cons, b3, a3]

/-- The shape of a sweep: the events it emits and the deletion record it ends
with, in terms of the group calls `xs` and the shard calls `ys` it made. -/
theorem sweep_run (c : Collaborators σ) (w : σ) :
    ∃ xs ys ids perr,
      (sweep c w).trace =
        [Event.opStart, Event.Databases (c.Databases w).1] ++ groupEventsOf xs ++
          [Event.ShardIDs ids] ++ shardEventsOf (recordOf [] xs) ys ++ pruneEventsOf perr ∧
      xs.map GroupCall.candidate = expiredGroups c (c.Databases w).1 ∧
      (sweep c w).deletedShardIDs = recordOf [] xs ∧
      ys.map (·.id) = ids.filter (fun id => ((recordOf [] xs).get? id).isSome) := by
  obtain ⟨xs, n, g1, g2, g3, -⟩ := foldl_sweepDatabase_run c (c.Databases w).1
    { world := (c.Databases w).2, trace := [Event.opStart, Event.Databases (c.Databases w).1],
      clock := 0, deletedShardIDs := [] }
  generalize hst1 : List.foldl (sweepDatabase c) _ (c.Databases w).1 = st1 at g1 g2 g3
  obtain ⟨ys, s1, s2, s3⟩ := foldl_deleteLocal_run c (c.ShardIDs st1.world).1
    { st1 with world := (c.ShardIDs st1.world).2,
               trace := st1.trace ++ [Event.ShardIDs (c.ShardIDs st1.world).1] }
  generalize hst2 : List.foldl (deleteLocal c) _ (c.ShardIDs st1.world).1 = st2 at s1 s2 s3
  have hsweep : sweep c w = prunePhase c st2 := by
    simp only [sweep, groupPhase, shardPhase, List.singleton_append, List.cons_append,
      List.nil_append]
    rw [hst1, hst2]
  simp only at g1 g3 s1 s2 s3
  refine ⟨xs, ys, (c.ShardIDs st1.world).1, (c.PruneShardGroups st2.world).1, ?_, g2, ?_, ?_⟩
  · rw [hsweep]
    unfold prunePhase
    rcases h : c.PruneShardGroups st2.world with ⟨_ | e, w3⟩
    · simp [pruneEventsOf, s1, g1, g3]
    · simp [pruneEventsOf, s1, g1, g3]
  · rw [hsweep]
    have : (prunePhase c st2).deletedShardIDs = st2.deletedShardIDs := by
      unfold prunePhase
      rcases h : c.PruneShardGroups st2.world with ⟨_ | e, w3⟩ <;> rfl
    rw [this, s3, g3]
  · rw [s2, g3]

/-! ## Reading the trace of a sweep -/

theorem mem_groupCalls (tr : List Event) (x : GroupCall) :
    x ∈ groupCalls tr ↔ Event.DeleteShardGroup x.db x.rp x.g x.err ∈ tr := by
  unfold groupCalls
  rw [List.mem_filterMap]
  constructor
  · rintro ⟨e, he, h⟩
    cases e <;> simp at h
    subst h
    exact he
  · intro h
    exact ⟨_, h, rfl⟩

theorem mem_shardCalls (tr : List Event) (y : ShardCall) :
    y ∈ shardCalls tr ↔ Event.DeleteShard y.id y.err ∈ tr := by
  unfold shardCalls
  rw [List.mem_filterMap]
  constructor
  · rintro ⟨e, he, h⟩
    cases e <;> simp at h
    subst h
    exact he
  · intro h
    exact ⟨_, h, rfl⟩

theorem groupCalls_pruneEventsOf (perr : Option Err) : groupCalls (pruneEventsOf perr) = [] := by
  cases perr <;> simp [pruneEventsOf, groupCalls]

theorem shardCalls_pruneEventsOf (perr : Option Err) : shardCalls (pruneEventsOf perr) = [] := by
  cases perr <;> simp [pruneEventsOf, shardCalls]

theorem collaboratorCalls_pruneEventsOf (perr : Option Err) :
    collaboratorCalls (pruneEventsOf perr) = [CallKind.PruneShardGroups] := by
  cases perr <;> simp [pruneEventsOf, collaboratorCalls, Event.call?]

/-- The shape of a sweep, in terms of the calls read off its own trace. -/
theorem sweep_shape (c : Collaborators σ) (w : σ) :
    ∃ ids perr,
      (sweep c w).trace =
        [Event.opStart, Event.Databases (c.Databases w).1] ++
          groupEventsOf (groupCalls (sweep c w).trace) ++ [Event.ShardIDs ids] ++
          shardEventsOf (sweep c w).deletedShardIDs (shardCalls (sweep c w).trace) ++
          pruneEventsOf perr ∧
      (groupCalls (sweep c w).trace).map GroupCall.candidate =
        expiredGroups c (c.Databases w).1 ∧
      (sweep c w).deletedShardIDs = recordOf [] (groupCalls (sweep c w).trace) ∧
      (shardCalls (sweep c w).trace).map (·.id) =
        ids.filter (fun id => ((sweep c w).deletedShardIDs.get? id).isSome) := by
  obtain ⟨xs, ys, ids, perr, h1, h2, h3, h4⟩ := sweep_run c w
  have hys : ∀ y ∈ ys, ((recordOf [] xs).get? y.id).isSome := by
    intro y hy
    have : y.id ∈ ys.map (·.id) := List.mem_map_of_mem _ hy
    rw [h4, List.mem_filter] at this
    exact this.2
  have hx : groupCalls (sweep c w).trace = xs := by
    rw [h1]
    simp only [groupCalls_append, groupCalls_groupEventsOf, groupCalls_shardEventsOf,
      groupCalls_pruneEventsOf]
    simp [groupCalls]
  have hy : shardCalls (sweep c w).trace = ys := by
    rw [h1]
    simp only [shardCalls_append, shardCalls_groupEventsOf, shardCalls_shardEventsOf _ _ hys,
      shardCalls_pruneEventsOf]
    simp [shardCalls]
  refine ⟨ids, perr, ?_, ?_, ?_, ?_⟩
  · rw [hx, hy, h3]; exact h1
  · rw [hx]; exact h2
  · rw [hx]; exact h3
  · rw [hy, h3]; exact h4

/-- Membership in the enumeration of expired groups, unfolded. -/
theorem mem_expiredOfPolicies (c : Collaborators σ) (d : DatabaseInfo)
    (rs : List RetentionPolicyInfo) (k : Nat) (a : String × String × ShardGroupInfo)
    (h : a ∈ expiredOfPolicies c d k rs) :
    ∃ r ∈ rs, ∃ n, a.1 = d.Name ∧ a.2.1 = r.Name ∧ a.2.2 ∈ c.ExpiredShardGroups r (c.Now n) := by
  induction rs generalizing k with
  | nil => simp [expiredOfPolicies] at h
  | cons r rs ih =>
    simp only [expiredOfPolicies, List.mem_append, List.mem_map] at h
    rcases h with ⟨g, hg, rfl⟩ | h
    · exact ⟨r, List.mem_cons_self _ _, k, rfl, rfl, hg⟩
    · obtain ⟨r1, hr1, n, h1⟩ := ih (k + 1) h
      exact ⟨r1, List.mem_cons_of_mem _ hr1, n, h1⟩

theorem mem_expiredOfDatabases (c : Collaborators σ) (ds : List DatabaseInfo) (k : Nat)
    (a : String × String × ShardGroupInfo) (h : a ∈ expiredOfDatabases c k ds) :
    ∃ d ∈ ds, ∃ r ∈ d.RetentionPolicies, ∃ n,
      a.1 = d.Name ∧ a.2.1 = r.Name ∧ a.2.2 ∈ c.ExpiredShardGroups r (c.Now n) := by
  induction ds generalizing k with
  | nil => simp [expiredOfDatabases] at h
  | cons d ds ih =>
    simp only [expiredOfDatabases, List.mem_append] at h
    rcases h with h | h
    · exact ⟨d, List.mem_cons_self _ _, mem_expiredOfPolicies c d _ k a h⟩
    · obtain ⟨d1, hd1, h1⟩ := ih _ h
      exact ⟨d1, List.mem_cons_of_mem _ hd1, h1⟩

/-- If an element sits in a list right after `pre` and does not occur in the
first part `A` of the list, then `A` is a part of `pre`. -/
theorem subset_of_split {α : Type} (A S pre post : List α) (x : α)
    (h : A ++ S = pre ++ x :: post) (hx : x ∉ A) : ∀ a ∈ A, a ∈ pre := by
  rcases List.append_eq_append_iff.mp h with ⟨a1, h1, -⟩ | ⟨c1, h1, h2⟩
  · intro a ha
    rw [h1]
    exact List.mem_append_left _ ha
  · cases c1 with
    | nil =>
      intro a ha
      rw [h1] at ha
      simpa using ha
    | cons y c2 =>
      exfalso
      simp only [List.cons_append, List.cons.injEq] at h2
      apply hx
      rw [h1, ← h2.1]
      simp

theorem mem_groupEventsOf (xs : List GroupCall) (x : GroupCall) (h : x ∈ xs) :
    Event.DeleteShardGroup x.db x.rp x.g x.err ∈ groupEventsOf xs := by
  rw [← mem_groupCalls, groupCalls_groupEventsOf]
  exact h

/-- Every shard id in the deletion record at the end of a sweep is the id of a
shard of a group whose `DeleteShardGroup` call returned no error. -/
theorem sweep_record_justified (c : Collaborators σ) (w : σ) (id : Nat)
    (h : ((sweep c w).deletedShardIDs.get? id).isSome) :
    ∃ x ∈ groupCalls (sweep c w).trace, x.err = none ∧ id ∈ shardIDsOf x.g := by
  obtain ⟨ids, perr, -, -, h3, -⟩ := sweep_shape c w
  rw [h3, get?_recordOf_isSome] at h
  rcases h with h | h
  · simp [DeletionRecord.get?] at h
  · exact h

/-- Every shard id passed to `DeleteShard` in a sweep is in the deletion
record. -/
theorem sweep_request_recorded (c : Collaborators σ) (w : σ) (id : Nat) (err : Option Err)
    (h : Event.DeleteShard id err ∈ (sweep c w).trace) :
    ((sweep c w).deletedShardIDs.get? id).isSome := by
  obtain ⟨ids, perr, -, -, -, h4⟩ := sweep_shape c w
  have h1 : (⟨id, err⟩ : ShardCall) ∈ shardCalls (sweep c w).trace :=
    (mem_shardCalls _ _).mpr h
  have h2 : id ∈ (shardCalls (sweep c w).trace).map (·.id) :=
    List.mem_map.mpr ⟨_, h1, rfl⟩
  rw [h4, List.mem_filter] at h2
  exact h2.2

/-- C1. In every sweep, whatever the collaborators answer: a shard id passed to
`TSDBStore.DeleteShard` is the id of a shard listed in a group that
`ExpiredShardGroups` returned for a policy of a listed database and for which
`MetaClient.DeleteShardGroup` returned no error earlier in the same sweep. -/
theorem sweep_deleteShard_after_group (c : Collaborators σ) (w : σ)
    (pre post : List Event) (id : Nat) (err : Option Err)
    (h : (sweep c w).trace = pre ++ Event.DeleteShard id err :: post) :
    ∃ d ∈ (c.Databases w).1, ∃ r ∈ d.RetentionPolicies, ∃ n,
      ∃ g ∈ c.ExpiredShardGroups r (c.Now n),
        Event.DeleteShardGroup d.Name r.Name g none ∈ pre ∧ id ∈ shardIDsOf g := by
  have hmem : Event.DeleteShard id err ∈ (sweep c w).trace := by
    rw [h]; simp
  obtain ⟨x, hx, hxerr, hxid⟩ := sweep_record_justified c w id (sweep_request_recorded c w id err hmem)
  obtain ⟨ids, perr, h1, h2, -, -⟩ := sweep_shape c w
  have hcand : x.candidate ∈ expiredGroups c (c.Databases w).1 := by
    rw [← h2]
    exact List.mem_map_of_mem _ hx
  obtain ⟨d, hd, r, hr, n, e1, e2, e3⟩ := mem_expiredOfDatabases c _ 0 _ hcand
  simp only [GroupCall.candidate] at e1 e2 e3
  refine ⟨d, hd, r, hr, n, x.g, e3, ?_, hxid⟩
  rw [← e1, ← e2, ← hxerr]
  rw [h1, List.append_assoc] at h
  refine subset_of_split _ _ pre post _ h ?_ _ ?_
  · intro hin
    have := (mem_shardCalls _ ⟨id, err⟩).mpr hin
    simp only [shardCalls_append, shardCalls_groupEventsOf] at this
    simp [shardCalls] at this
  · simp only [List.mem_append]
    exact Or.inl (Or.inr (mem_groupEventsOf _ x hx))

/-- C1, on the scenario in which the deletion of shard 2 fails: the request for
shard 1 comes after the successful deletion of `g1`. -/
theorem sweep_deleteShard_after_group_witness :
    (sweep (Node.collaborators 100) (scenario [] [2])).trace =
        [Event.opStart, Event.Databases [db1, db2],
          Event.DeleteShardGroup "db1" "rp1" g1 none, Event.logGroupDeleted "db1" 1 "rp1",
          Event.ShardIDs [1, 2, 3]] ++
        Event.DeleteShard 1 none ::
          [Event.logShardDeleted "db1" 1 "rp1",
           Event.DeleteShard 2 (some { msg := "shard busy" }),
           Event.logShardFailed { msg := "shard busy" } "db1" 2 "rp1",
           Event.PruneShardGroups none, Event.opEnd] ∧
      ∃ d ∈ ((Node.collaborators 100).Databases (scenario [] [2])).1,
        ∃ r ∈ d.RetentionPolicies, ∃ n,
          ∃ g ∈ (Node.collaborators 100).ExpiredShardGroups r ((Node.collaborators 100).Now n),
            Event.DeleteShardGroup d.Name r.Name g none ∈
                [Event.opStart, Event.Databases [db1, db2],
                  Event.DeleteShardGroup "db1" "rp1" g1 none,
                  Event.logGroupDeleted "db1" 1 "rp1", Event.ShardIDs [1, 2, 3]] ∧
              1 ∈ shardIDsOf g :=
  ⟨by decide,
    sweep_deleteShard_after_group (Node.collaborators 100) (scenario [] [2])
      [Event.opStart, Event.Databases [db1, db2],
        Event.DeleteShardGroup "db1" "rp1" g1 none, Event.logGroupDeleted "db1" 1 "rp1",
        Event.ShardIDs [1, 2, 3]]
      [Event.logShardDeleted "db1" 1 "rp1",
        Event.DeleteShard 2 (some { msg := "shard busy" }),
        Event.logShardFailed { msg := "shard busy" } "db1" 2 "rp1",
        Event.PruneShardGroups none, Event.opEnd]
      1 none (by decide)⟩

/-- C2. In a sweep over a snapshot in which each shard id belongs to one shard
group and each expired group is enumerated once: if
`MetaClient.DeleteShardGroup` returns an error for group `g`, no shard id of
`g` is in the deletion record and none is passed to `TSDBStore.DeleteShard`,
whatever `TSDBStore.ShardIDs` returns. -/
theorem sweep_failed_group_untouched (c : Collaborators σ) (w : σ)
    (honce : ((expiredGroups c (c.Databases w).1).map fun a => a.2.2.ID).Nodup)
    (hown : ∀ a ∈ expiredGroups c (c.Databases w).1,
      ∀ b ∈ expiredGroups c (c.Databases w).1,
        ∀ id ∈ shardIDsOf a.2.2, id ∈ shardIDsOf b.2.2 → a.2.2.ID = b.2.2.ID)
    (db rp : String) (g : ShardGroupInfo) (e : Err)
    (hfail : Event.DeleteShardGroup db rp g (some e) ∈ (sweep c w).trace)
    (id : Nat) (hid : id ∈ shardIDsOf g) :
    (sweep c w).deletedShardIDs.get? id = none ∧
      ∀ err, Event.DeleteShard id err ∉ (sweep c w).trace := by
  have hrec : ¬ ((sweep c w).deletedShardIDs.get? id).isSome := by
    intro hsome
    obtain ⟨x, hx, hxerr, hxid⟩ := sweep_record_justified c w id hsome
    obtain ⟨ids, perr, -, h2, -, -⟩ := sweep_shape c w
    have hy : (⟨db, rp, g, some e⟩ : GroupCall) ∈ groupCalls (sweep c w).trace :=
      (mem_groupCalls _ _).mpr hfail
    have hxc : x.candidate ∈ expiredGroups c (c.Databases w).1 := by
      rw [← h2]; exact List.mem_map_of_mem _ hx
    have hyc : (⟨db, rp, g, some e⟩ : GroupCall).candidate ∈
        expiredGroups c (c.Databases w).1 := by
      rw [← h2]; exact List.mem_map_of_mem _ hy
    have hsame : x.g.ID = g.ID := hown _ hxc _ hyc id hxid hid
    rw [← h2, List.map_map] at honce
    have := List.inj_on_of_nodup_map honce hx hy hsame
    rw [this] at hxerr
    cases hxerr
  refine ⟨?_, ?_⟩
  · cases hget : (sweep c w).deletedShardIDs.get? id with
    | none => rfl
    | some v => rw [hget] at hrec; simp at hrec
  · intro err hin
    exact hrec (sweep_request_recorded c w id err hin)

/-- C2, on the scenario in which the deletion of `g1` fails: shards 1 and 2 are
stored locally, yet shard 1 is neither recorded nor requested. -/
theorem sweep_failed_group_untouched_witness :
    Event.ShardIDs [1, 2, 3] ∈ (sweep (Node.collaborators 100) (scenario [1] [])).trace ∧
      (sweep (Node.collaborators 100) (scenario [1] [])).deletedShardIDs.get? 1 = none ∧
      ∀ err, Event.DeleteShard 1 err ∉ (sweep (Node.collaborators 100) (scenario [1] [])).trace :=
  ⟨by decide,
    sweep_failed_group_untouched (Node.collaborators 100) (scenario [1] []) (by decide)
      (by decide) "db1" "rp1" g1 { msg := "metadata unavailable" } (by decide) 1 (by decide)⟩

/-- C5. In every sweep the `MetaClient.DeleteShardGroup` requests are, in
order, exactly the `(database name, policy name, group id)` triples of the
groups `ExpiredShardGroups` returned for each database and each of its
policies: one request per enumerated group, whatever the calls answer. -/
theorem sweep_group_requests (c : Collaborators σ) (w : σ) :
    (groupCalls (sweep c w).trace).map GroupCall.request =
      (expiredGroups c (c.Databases w).1).map fun a => (a.1, a.2.1, a.2.2.ID) := by
  obtain ⟨ids, perr, -, h2, -, -⟩ := sweep_shape c w
  rw [← h2, List.map_map]
  rfl

/-- C4. For every sweep and every pattern of collaborator failures the
collaborator calls are `Databases`, then the `DeleteShardGroup` calls, then
`ShardIDs`, then the `DeleteShard` calls, then one `PruneShardGroups` as the
last call; the trace starts with the start event and ends with the end
event. -/
theorem sweep_call_sequence (c : Collaborators σ) (w : σ) :
    collaboratorCalls (sweep c w).trace =
        [CallKind.Databases] ++
          List.replicate (groupCalls (sweep c w).trace).length CallKind.DeleteShardGroup ++
          [CallKind.ShardIDs] ++
          List.replicate (shardCalls (sweep c w).trace).length CallKind.DeleteShard ++
          [CallKind.PruneShardGroups] ∧
      (sweep c w).trace.head? = some Event.opStart ∧
      (sweep c w).trace.getLast? = some Event.opEnd := by
  obtain ⟨ids, perr, h1, -, -, h4⟩ := sweep_shape c w
  have hys : ∀ y ∈ shardCalls (sweep c w).trace,
      ((sweep c w).deletedShardIDs.get? y.id).isSome := by
    intro y hy
    have : y.id ∈ (shardCalls (sweep c w).trace).map (·.id) := List.mem_map_of_mem _ hy
    rw [h4, List.mem_filter] at this
    exact this.2
  refine ⟨?_, ?_, ?_⟩
  · conv_lhs => rw [h1]
    simp only [collaboratorCalls_append, collaboratorCalls_groupEventsOf,
      collaboratorCalls_shardEventsOf _ _ hys, collaboratorCalls_pruneEventsOf]
    simp [collaboratorCalls, Event.call?]
  · rw [h1]; simp
  · have hend : ∀ (L : List Event) (perr : Option Err),
        ∃ l, L ++ pruneEventsOf perr = l ++ [Event.opEnd] := by
      intro L perr
      cases perr with
      | none => exact ⟨L ++ [Event.PruneShardGroups none], by simp [pruneEventsOf]⟩
      | some e =>
        exact ⟨L ++ [Event.PruneShardGroups (some e), Event.logPruneFailed e], by
          simp [pruneEventsOf]⟩
    rw [h1]
    generalize [Event.opStart, Event.Databases (c.Databases w).1] ++
      groupEventsOf (groupCalls (sweep c w).trace) ++ [Event.ShardIDs ids] ++
      shardEventsOf (sweep c w).deletedShardIDs (shardCalls (sweep c w).trace) = L
    obtain ⟨l, hl⟩ := hend L perr
    rw [hl, List.getLast?_concat]

/-! ## The local shard set across a sweep -/

theorem foldl_obs {α β : Type} (f : SweepState σ → α → SweepState σ) (obs : SweepState σ → β)
    (h : ∀ st a, obs (f st a) = obs st) (l : List α) (st : SweepState σ) :
    obs (l.foldl f st) = obs st := by
  induction l generalizing st with
  | nil => rfl
  | cons a l ih => rw [List.foldl_cons, ih, h]

theorem deleteGroup_obs (c : Collaborators σ) (stored : σ → List Nat) (law : StoreLaw c stored)
    (d : DatabaseInfo) (r : RetentionPolicyInfo) (st : SweepState σ) (g : ShardGroupInfo) :
    (stored (deleteGroup c d r st g).world, shardCalls (deleteGroup c d r st g).trace) =
      (stored st.world, shardCalls st.trace) := by
  have hlaw := law.deleteShardGroup d.Name r.Name g.ID st.world
  unfold deleteGroup
  rcases h : c.DeleteShardGroup d.Name r.Name g.ID st.world with ⟨_ | e, w1⟩
  · rw [h] at hlaw
    simp only [shardCalls_append, Prod.mk.injEq]
    exact ⟨hlaw, by simp [shardCalls]⟩
  · rw [h] at hlaw
    simp only [shardCalls_append, Prod.mk.injEq]
    exact ⟨hlaw, by simp [shardCalls]⟩

theorem groupPhase_obs (c : Collaborators σ) (stored : σ → List Nat) (law : StoreLaw c stored)
    (st : SweepState σ) :
    (stored (groupPhase c st).world, shardCalls (groupPhase c st).trace) =
      (stored st.world, shardCalls st.trace) := by
  unfold groupPhase
  rw [foldl_obs (sweepDatabase c) (fun st => (stored st.world, shardCalls st.trace))]
  · simp only [shardCalls_append, Prod.mk.injEq]
    exact ⟨law.databases st.world, by simp [shardCalls]⟩
  · intro st1 d
    unfold sweepDatabase
    apply foldl_obs (sweepPolicy c d) (fun st => (stored st.world, shardCalls st.trace))
    intro st2 r
    unfold sweepPolicy
    rw [foldl_obs (deleteGroup c d r) (fun st => (stored st.world, shardCalls st.trace))]
    exact deleteGroup_obs c stored law d r

/-- The invariant of the physical-deletion loop: what is stored is what was
stored at `base` minus the ids whose `DeleteShard` call returned no error. -/
theorem foldl_deleteLocal_stored (c : Collaborators σ) (stored : σ → List Nat)
    (law : StoreLaw c stored) (base : List Nat) (ids : List Nat) (st : SweepState σ)
    (h : stored st.world =
      base.filter (fun s => decide ((⟨s, none⟩ : ShardCall) ∉ shardCalls st.trace))) :
    stored (ids.foldl (deleteLocal c) st).world =
      base.filter (fun s =>
        decide ((⟨s, none⟩ : ShardCall) ∉ shardCalls (ids.foldl (deleteLocal c) st).trace)) := by
  induction ids generalizing st with
  | nil => exact h
  | cons id ids ih =>
    rw [List.foldl_cons]
    apply ih
    unfold deleteLocal
    cases hm : st.deletedShardIDs.get? id with
    | none => exact h
    | some info =>
      have hok := law.deleteOk id st.world
      have herr := law.deleteErr id st.world
      rcases hcall : c.DeleteShard id st.world with ⟨_ | e, w1⟩
      · rw [hcall] at hok
        simp only [shardCalls_append]
        rw [hok rfl, h, List.filter_filter]
        apply List.filter_congr
        intro s _
        simp [shardCalls]
        by_cases hs : s = id <;> simp [hs]
      · rw [hcall] at herr
        simp only [shardCalls_append]
        rw [herr e rfl, h]
        apply List.filter_congr
        intro s _
        simp [shardCalls]

/-- With a store that removes a shard exactly when `DeleteShard` succeeds, the
local shard set after a sweep is the set before minus the ids whose
`DeleteShard` call returned no error. -/
theorem sweep_stored (c : Collaborators σ) (stored : σ → List Nat) (law : StoreLaw c stored)
    (w : σ) :
    stored (sweep c w).world =
      (stored w).filter (fun s => decide (Event.DeleteShard s none ∉ (sweep c w).trace)) := by
  have hfilter : ∀ tr : List Event, ∀ s,
      decide (Event.DeleteShard s none ∉ tr) =
        decide ((⟨s, none⟩ : ShardCall) ∉ shardCalls tr) := by
    intro tr s
    exact decide_eq_decide.mpr (not_congr (mem_shardCalls tr ⟨s, none⟩).symm)
  simp only [hfilter]
  unfold sweep
  obtain ⟨st0, hst0⟩ : ∃ st0 : SweepState σ,
      st0 = { world := w, trace := [Event.opStart], clock := 0, deletedShardIDs := [] } :=
    ⟨_, rfl⟩
  rw [← hst0]
  have hg := groupPhase_obs c stored law st0
  simp only [Prod.mk.injEq] at hg
  have hw0 : stored st0.world = stored w := by rw [hst0]
  have ht0 : shardCalls st0.trace = [] := by rw [hst0]; simp [shardCalls]
  generalize groupPhase c st0 = st1 at hg
  have hs : stored (shardPhase c st1).world =
      (stored w).filter (fun s =>
        decide ((⟨s, none⟩ : ShardCall) ∉ shardCalls (shardPhase c st1).trace)) := by
    unfold shardPhase
    apply foldl_deleteLocal_stored c stored law
    simp only [shardCalls_append, hg.2, ht0]
    rw [(law.shardIDs st1.world).2, hg.1, hw0]
    simp [shardCalls]
  generalize shardPhase c st1 = st2 at hs
  unfold prunePhase
  have hp := law.pruneShardGroups st2.world
  rcases hcall : c.PruneShardGroups st2.world with ⟨_ | e, w3⟩
  · rw [hcall] at hp
    simp only [shardCalls_append]
    rw [hp, hs]
    simp [shardCalls]
  · rw [hcall] at hp
    simp only [shardCalls_append]
    rw [hp, hs]
    simp [shardCalls]

theorem call_mem_collaboratorCalls (tr : List Event) (e : Event) (k : CallKind)
    (he : e ∈ tr) (hk : e.call? = some k) : k ∈ collaboratorCalls tr :=
  List.mem_filterMap.mpr ⟨e, he, hk⟩

/-- The one `ShardIDs` event of a sweep. -/
theorem sweep_shardIDs_unique (c : Collaborators σ) (w : σ) (ids : List Nat)
    (h : Event.ShardIDs ids ∈ (sweep c w).trace) :
    (shardCalls (sweep c w).trace).map (·.id) =
      ids.filter (fun id => ((sweep c w).deletedShardIDs.get? id).isSome) := by
  obtain ⟨ids1, perr, h1, -, -, h4⟩ := sweep_shape c w
  have hys : ∀ y ∈ shardCalls (sweep c w).trace,
      ((sweep c w).deletedShardIDs.get? y.id).isSome := by
    intro y hy
    have : y.id ∈ (shardCalls (sweep c w).trace).map (·.id) := List.mem_map_of_mem _ hy
    rw [h4, List.mem_filter] at this
    exact this.2
  have hids : ids = ids1 := by
    rw [h1] at h
    simp only [List.mem_append] at h
    rcases h with (((h | h) | h) | h) | h
    · simp at h
    · have := call_mem_collaboratorCalls _ _ CallKind.ShardIDs h rfl
      rw [collaboratorCalls_groupEventsOf] at this
      cases List.eq_of_mem_replicate this
    · simpa using h
    · have := call_mem_collaboratorCalls _ _ CallKind.ShardIDs h rfl
      rw [collaboratorCalls_shardEventsOf _ _ hys] at this
      cases List.eq_of_mem_replicate this
    · have := call_mem_collaboratorCalls _ _ CallKind.ShardIDs h rfl
      rw [collaboratorCalls_pruneEventsOf] at this
      simp at this
  rw [hids]
  exact h4

/-- Every shard id passed to `DeleteShard` in a sweep is the id of a shard of a
group returned as expired for a policy of a listed database. -/
theorem sweep_request_expired (c : Collaborators σ) (w : σ) (id : Nat) (err : Option Err)
    (h : Event.DeleteShard id err ∈ (sweep c w).trace) :
    ∃ a ∈ expiredGroups c (c.Databases w).1, id ∈ shardIDsOf a.2.2 := by
  obtain ⟨x, hx, -, hxid⟩ :=
    sweep_record_justified c w id (sweep_request_recorded c w id err h)
  obtain ⟨ids, perr, -, h2, -, -⟩ := sweep_shape c w
  refine ⟨x.candidate, ?_, hxid⟩
  rw [← h2]
  exact List.mem_map_of_mem _ hx

/-- C3 as stated fails: on a snapshot in which shard 2 is listed both in the
expired group `g1` of `db1` and in the group `g3` of `db2`, which has no
expired group, the sweep requests the deletion of shard 2, a shard of `db2`. -/
theorem sweep_shared_shard_counterexample :
    db2shared ∈ ((Node.collaborators 100).Databases sharedScenario).1 ∧
      (∀ r ∈ db2shared.RetentionPolicies, Node.expired r 100 = []) ∧
      2 ∈ shardsOfDatabase db2shared ∧
      Event.DeleteShard 2 none ∈ (sweep (Node.collaborators 100) sharedScenario).trace := by
  decide

/-- C3, amended. In every sweep the ids passed to `TSDBStore.DeleteShard` are,
in order and once per occurrence, the ids returned by `TSDBStore.ShardIDs`
that are in the deletion record, whatever earlier `DeleteShard` calls
answered. With a store that removes a shard exactly when `DeleteShard`
succeeds, the local shard set after the sweep is the set before minus the ids
whose deletion succeeded. When `ExpiredShardGroups` returns only groups of the
policy it is asked about and no shard id is listed in two databases of the
snapshot, no shard of a database without expired group is requested. -/
theorem sweep_physical_deletion (c : Collaborators σ) (w : σ) :
    (∀ ids, Event.ShardIDs ids ∈ (sweep c w).trace →
      (shardCalls (sweep c w).trace).map (·.id) =
        ids.filter (fun id => ((sweep c w).deletedShardIDs.get? id).isSome)) ∧
    (∀ stored : σ → List Nat, StoreLaw c stored →
      stored (sweep c w).world =
        (stored w).filter
          (fun s => decide (Event.DeleteShard s none ∉ (sweep c w).trace))) ∧
    (∀ d2 ∈ (c.Databases w).1,
      (∀ r n, ∀ g ∈ c.ExpiredShardGroups r (c.Now n), g ∈ r.ShardGroups) →
      (∀ d ∈ (c.Databases w).1, ∀ d1 ∈ (c.Databases w).1,
        ∀ id ∈ shardsOfDatabase d, id ∈ shardsOfDatabase d1 → d = d1) →
      (∀ r ∈ d2.RetentionPolicies, ∀ n, c.ExpiredShardGroups r (c.Now n) = []) →
      ∀ id ∈ shardsOfDatabase d2, ∀ err, Event.DeleteShard id err ∉ (sweep c w).trace) := by
  refine ⟨sweep_shardIDs_unique c w, fun stored law => sweep_stored c stored law w, ?_⟩
  intro d2 hd2 hsub hown hnone id hid err hreq
  obtain ⟨a, ha, haid⟩ := sweep_request_expired c w id err hreq
  obtain ⟨d, hd, r, hr, n, -, -, hg⟩ := mem_expiredOfDatabases c _ 0 a ha
  have hshard : id ∈ shardsOfDatabase d := by
    unfold shardsOfDatabase
    exact List.mem_flatMap.mpr ⟨r, hr, List.mem_flatMap.mpr ⟨a.2.2, hsub r n _ hg, haid⟩⟩
  have hdd : d = d2 := hown d hd d2 hd2 id hshard hid
  subst hdd
  rw [hnone r hr n] at hg
  cases hg

/-- The concrete node is a store that removes a shard exactly when
`DeleteShard` succeeds. -/
theorem Node.storeLaw (now : Int) : StoreLaw (Node.collaborators now) Node.stored := by
  constructor
  · intro w
    exact ⟨rfl, rfl⟩
  · intro id w h
    by_cases hf : id ∈ w.failShards
    · simp [Node.collaborators, hf] at h
    · simp [Node.collaborators, hf]
  · intro id w e h
    by_cases hf : id ∈ w.failShards
    · simp [Node.collaborators, hf]
    · simp [Node.collaborators, hf] at h
  · intro w
    rfl
  · intro db rp id w
    by_cases hf : id ∈ w.failGroups
    · simp [Node.collaborators, hf]
    · simp [Node.collaborators, hf]
  · intro w
    rfl

/-- C3 amended, on the scenario in which `g1` is deleted, the deletion of shard 1
succeeds and that of shard 2 fails: both are requested, shard 1 is gone, shard
2 remains, and shard 3 of `db2` is not requested. -/
theorem sweep_physical_deletion_witness :
    (shardCalls (sweep (Node.collaborators 100) (scenario [] [2])).trace).map (·.id) = [1, 2] ∧
      (sweep (Node.collaborators 100) (scenario [] [2])).world.stored = [2, 3] ∧
      ∀ err, Event.DeleteShard 3 err ∉ (sweep (Node.collaborators 100) (scenario [] [2])).trace :=
  have h := sweep_physical_deletion (Node.collaborators 100) (scenario [] [2])
  ⟨(h.1 [1, 2, 3] (by decide)).trans (by decide),
    (h.2.1 Node.stored (Node.storeLaw 100)).trans (by decide),
    h.2.2 db2 (by decide) (fun _ _ _ hg => (List.mem_filter.mp hg).1) (by decide)
      (by
        intro r hr n
        have hr1 : r = { Name := "rp2", Duration := 50, ShardGroups := [g2] } := by
          simpa [db2] using hr
        subst hr1
        show Node.expired { Name := "rp2", Duration := 50, ShardGroups := [g2] } 100 = []
        decide)
      3 (by decide)⟩

/-- C6 as stated fails: on the scenario in which `g1` is deleted and the
deletion of shard 2 fails, shard 2 remains stored and is returned by
`ShardIDs` in the next sweep, the metadata no longer lists `g1`, and the next
sweep makes no `DeleteShard` request for shard 2. -/
theorem sweep_no_retry_counterexample :
    Event.DeleteShardGroup "db1" "rp1" g1 none ∈
        (sweep (Node.collaborators 100) (scenario [] [2])).trace ∧
      Event.DeleteShard 2 (some { msg := "shard busy" }) ∈
        (sweep (Node.collaborators 100) (scenario [] [2])).trace ∧
      expiredGroups (Node.collaborators 100)
        ((Node.collaborators 100).Databases
          (sweep (Node.collaborators 100) (scenario [] [2])).world).1 = [] ∧
      Event.ShardIDs [2, 3] ∈
        (sweep (Node.collaborators 100)
          (sweep (Node.collaborators 100) (scenario [] [2])).world).trace ∧
      ¬ ∃ err, Event.DeleteShard 2 err ∈
        (sweep (Node.collaborators 100)
          (sweep (Node.collaborators 100) (scenario [] [2])).world).trace := by
  refine ⟨by decide, by decide, by decide, by decide, ?_⟩
  rintro ⟨err, herr⟩
  have h := (mem_shardCalls _ ⟨2, err⟩).mpr herr
  have h2 : shardCalls (sweep (Node.collaborators 100)
      (sweep (Node.collaborators 100) (scenario [] [2])).world).trace = [] := by decide
  rw [h2] at h
  cases h

/-- C6, amended. With a store that removes a shard exactly when `DeleteShard`
succeeds, a stored shard for which no `DeleteShard` call of the sweep returned
without error is still stored after the sweep. A later sweep requests
`DeleteShard` for a shard id exactly when the id is returned by `ShardIDs` and
is the id of a shard of a group whose `DeleteShardGroup` call returns no error
in that later sweep; when no expired group enumerated in the later sweep lists
the id, the later sweep makes no `DeleteShard` request for it. -/
theorem sweep_retry_only_if_relisted (c : Collaborators σ) (id : Nat) :
    (∀ (stored : σ → List Nat) (w : σ), StoreLaw c stored → id ∈ stored w →
      Event.DeleteShard id none ∉ (sweep c w).trace → id ∈ stored (sweep c w).world) ∧
    (∀ (w2 : σ) (ids : List Nat), Event.ShardIDs ids ∈ (sweep c w2).trace →
      ((∃ err, Event.DeleteShard id err ∈ (sweep c w2).trace) ↔
        id ∈ ids ∧ ∃ x ∈ groupCalls (sweep c w2).trace, x.err = none ∧ id ∈ shardIDsOf x.g)) ∧
    (∀ w2 : σ, (∀ a ∈ expiredGroups c (c.Databases w2).1, id ∉ shardIDsOf a.2.2) →
      ∀ err, Event.DeleteShard id err ∉ (sweep c w2).trace) := by
  refine ⟨?_, ?_, ?_⟩
  · intro stored w law hin hno
    rw [sweep_stored c stored law w, List.mem_filter]
    exact ⟨hin, by simpa using hno⟩
  · intro w2 ids hids
    have hcalls := sweep_shardIDs_unique c w2 ids hids
    constructor
    · rintro ⟨err, herr⟩
      have hrec := sweep_request_recorded c w2 id err herr
      have h1 : id ∈ (shardCalls (sweep c w2).trace).map (·.id) :=
        List.mem_map.mpr ⟨⟨id, err⟩, (mem_shardCalls _ _).mpr herr, rfl⟩
      rw [hcalls, List.mem_filter] at h1
      exact ⟨h1.1, sweep_record_justified c w2 id hrec⟩
    · rintro ⟨hin, x, hx, hxerr, hxid⟩
      obtain ⟨ids1, perr, -, -, h3, -⟩ := sweep_shape c w2
      have hrec : ((sweep c w2).deletedShardIDs.get? id).isSome := by
        rw [h3, get?_recordOf_isSome]
        exact Or.inr ⟨x, hx, hxerr, hxid⟩
      have h1 : id ∈ (shardCalls (sweep c w2).trace).map (·.id) := by
        rw [hcalls, List.mem_filter]
        exact ⟨hin, hrec⟩
      obtain ⟨y, hy, hyid⟩ := List.mem_map.mp h1
      refine ⟨y.err, ?_⟩
      have := (mem_shardCalls _ _).mp hy
      have hyid1 : y.id = id := hyid
      rw [hyid1] at this
      exact this
  · intro w2 hnone err herr
    obtain ⟨a, ha, haid⟩ := sweep_request_expired c w2 id err herr
    exact hnone a ha haid

/-- C6 amended, on the scenario in which the deletion of shard 2 fails: shard 2
is still stored after the first sweep and the second sweep does not request
it. -/
theorem sweep_retry_only_if_relisted_witness :
    2 ∈ (sweep (Node.collaborators 100) (scenario [] [2])).world.stored ∧
      ∀ err, Event.DeleteShard 2 err ∉
        (sweep (Node.collaborators 100)
          (sweep (Node.collaborators 100) (scenario [] [2])).world).trace :=
  have h := sweep_retry_only_if_relisted (Node.collaborators 100) 2
  ⟨h.1 Node.stored (scenario [] [2]) (Node.storeLaw 100) (by decide) (by decide),
    h.2.2 (sweep (Node.collaborators 100) (scenario [] [2])).world (by decide)⟩

/-! ## Open and Close -/

theorem Service.Open_sound (s : Service σ) (h : s.Sound) (hpos : 0 < s.config.CheckInterval) :
    (Service.Open s).1.Sound ∧ (Service.Open s).2 = none ∧
      (Service.Open s).1.config = s.config ∧
      (s.config.Enabled = true →
        (Service.Open s).1.done.isSome = true ∧
        (Service.Open s).1.launched = s.launched + (if s.done.isSome = true then 0 else 1)) := by
  obtain ⟨h1, h2, h3, h4⟩ := h
  have hnot : ¬ s.config.CheckInterval ≤ 0 := not_le.mpr hpos
  unfold Service.Open
  by_cases hc : (!s.config.Enabled || s.done.isSome) = true
  · rw [if_pos hc]
    refine ⟨⟨h1, h2, h3, h4⟩, rfl, rfl, ?_⟩
    intro hen
    have hd : s.done.isSome = true := by simpa [hen] using hc
    simp [hd]
  · rw [if_neg hc]
    have hdone : s.done.isSome = false := by
      cases hd : s.done.isSome
      · rfl
      · exfalso; apply hc; simp [hd]
    have hw : s.workers = 0 := by
      have : ¬ s.workers = 1 := by rw [h3, hdone]; simp
      omega
    simp only [Service.startRun, if_neg hnot]
    refine ⟨⟨?_, ?_, ?_, h4⟩, trivial, trivial, ?_⟩
    · simp [h1]
    · simp [hw]
    · simp [hw]
    · intro _
      simp [hdone]

theorem Service.Close_sound (s : Service σ) (h : s.Sound) :
    ∃ s1, Service.Close s = some (s1, none) ∧ s1.Sound ∧ s1.config = s.config ∧
      (s.config.Enabled = true → s1.done = none ∧ s1.workers = 0) ∧
      s1.launched = s.launched := by
  obtain ⟨h1, h2, h3, h4⟩ := h
  unfold Service.Close
  by_cases hc : (!s.config.Enabled || s.done.isNone) = true
  · rw [if_pos hc]
    refine ⟨s, rfl, ⟨h1, h2, h3, h4⟩, rfl, ?_, rfl⟩
    intro hen
    have hnone : s.done.isNone = true := by simpa [hen] using hc
    have hd : s.done = none := by simpa using hnone
    have hw : ¬ s.workers = 1 := by rw [h3, hd]; simp
    exact ⟨hd, by omega⟩
  · rw [if_neg hc]
    simp only [h1, Nat.sub_self, if_true]
    exact ⟨_, rfl, ⟨rfl, by simp, by simp, h4⟩, rfl, fun _ => ⟨rfl, rfl⟩, rfl⟩

theorem Service.tick_sound (c : Collaborators σ) (s : Service σ) (h : s.Sound) :
    (Service.tick c s).Sound ∧ (Service.tick c s).config = s.config ∧
      (Service.tick c s).done = s.done ∧ (Service.tick c s).launched = s.launched := by
  unfold Service.tick
  by_cases hw : s.workers = 0
  · rw [if_pos hw]; exact ⟨h, rfl, rfl, rfl⟩
  · rw [if_neg hw]; exact ⟨h, rfl, rfl, rfl⟩

/-- From a sound state of an enabled service with a positive check interval
every sequence of operations runs to its end, every call returns `nil`, the
state stays sound, the service is running exactly when the last call was an
`Open`, and one worker was launched for every `Open` made while stopped. -/
theorem exec_sound (c : Collaborators σ) (ops : List Op) (s : Service σ) (h : s.Sound)
    (hen : s.config.Enabled = true) (hpos : 0 < s.config.CheckInterval) :
    ∃ s1 rets, exec c ops s = some (s1, rets) ∧ s1.Sound ∧ s1.config = s.config ∧
      (∀ ret ∈ rets, ret = none) ∧
      s1.done.isSome = runningAfter ops s.done.isSome ∧
      s1.launched = s.launched + launchesOf ops s.done.isSome := by
  induction ops generalizing s with
  | nil => exact ⟨s, [], rfl, h, rfl, by simp, rfl, rfl⟩
  | cons op ops ih =>
    have hp : s.panicked = false := h.2.2.2
    cases op with
    | Open =>
      obtain ⟨ho, hret, hcfg, hlaunch⟩ := Service.Open_sound s h hpos
      obtain ⟨hdone, hl⟩ := hlaunch hen
      obtain ⟨s1, rets, he, hs, hc, hr, hrun, hcount⟩ :=
        ih _ ho (by rw [hcfg]; exact hen) (by rw [hcfg]; exact hpos)
      refine ⟨s1, (Service.Open s).2 :: rets, ?_, hs, hc.trans hcfg, ?_, ?_, ?_⟩
      · simp [exec, hp, he]
      · intro ret hmem
        rcases List.mem_cons.mp hmem with rfl | hmem
        · exact hret
        · exact hr ret hmem
      · rw [hrun, hdone]; rfl
      · rw [hcount, hdone, hl]
        cases hd : s.done.isSome <;> simp [launchesOf, Nat.add_assoc]
    | Close =>
      obtain ⟨s0, hclose, ho, hcfg, hstop, hl⟩ := Service.Close_sound s h
      obtain ⟨hd0, -⟩ := hstop hen
      obtain ⟨s1, rets, he, hs, hc, hr, hrun, hcount⟩ :=
        ih _ ho (by rw [hcfg]; exact hen) (by rw [hcfg]; exact hpos)
      refine ⟨s1, none :: rets, ?_, hs, hc.trans hcfg, ?_, ?_, ?_⟩
      · simp [exec, hp, hclose, he]
      · intro ret hmem
        rcases List.mem_cons.mp hmem with rfl | hmem
        · rfl
        · exact hr ret hmem
      · rw [hrun, hd0]; rfl
      · rw [hcount, hd0, hl]; rfl
    | tick =>
      obtain ⟨ho, hcfg, hdone, hl⟩ := Service.tick_sound c s h
      obtain ⟨s1, rets, he, hs, hc, hr, hrun, hcount⟩ :=
        ih _ ho (by rw [hcfg]; exact hen) (by rw [hcfg]; exact hpos)
      refine ⟨s1, rets, by simp [exec, hp, he], hs, hc.trans hcfg, hr, ?_, ?_⟩
      · rw [hrun, hdone]; rfl
      · rw [hcount, hdone, hl]; rfl

theorem NewService_sound (cfg : Config) (w : σ) : (NewService cfg w).Sound :=
  ⟨rfl, by simp [NewService], by simp [NewService], rfl⟩

/-- C7 as stated fails: on a service created by `NewService` with `Enabled`
true and a check interval of 0, the goroutine started by `Open` panics in
`time.NewTicker`: after `Open` the channel `done` is not `nil` although no
worker runs, the process is dead, and a following `Close` never returns. -/
theorem open_panics_counterexample :
    (Service.Open
        (NewService { Enabled := true, CheckInterval := 0 } (scenario [] []))).1.panicked = true ∧
      (Service.Open
        (NewService { Enabled := true, CheckInterval := 0 } (scenario [] []))).1.done.isSome
          = true ∧
      (Service.Open
        (NewService { Enabled := true, CheckInterval := 0 } (scenario [] []))).1.workers = 0 ∧
      exec (Node.collaborators 100) [Op.Open, Op.Close, Op.Open]
        (NewService { Enabled := true, CheckInterval := 0 } (scenario [] [])) = none := by
  refine ⟨by decide, by decide, by decide, ?_⟩
  rfl

/-- C7, amended. On a service created by `NewService` with `Enabled` true and
a positive check interval, after every finite sequence of `Open` and `Close`
calls (and ticks), issued one after another: every call has returned `nil`,
the number of workers launched and not yet joined is at most 1 and is 1
exactly when `done` is not `nil`; the service is running exactly when the last
call was an `Open`, and one worker has been launched for every `Open` made
while stopped; `Open` while running and `Close` while stopped change nothing;
`Open` while stopped launches a worker; `Close` while running leaves `done`
nil and no worker, and a following `Open` launches a worker again. -/
theorem open_close_single_worker (c : Collaborators σ) (cfg : Config) (w : σ)
    (henabled : cfg.Enabled = true) (hpos : 0 < cfg.CheckInterval) (ops : List Op) :
    ∃ s rets, exec c ops (NewService cfg w) = some (s, rets) ∧
      (∀ ret ∈ rets, ret = none) ∧ s.panicked = false ∧
      s.workers ≤ 1 ∧ (s.workers = 1 ↔ s.done.isSome = true) ∧ s.wg = s.workers ∧
      s.done.isSome = runningAfter ops false ∧ s.launched = launchesOf ops false ∧
      (s.done.isSome = true → Service.Open s = (s, none)) ∧
      (s.done.isSome = false → Service.Close s = some (s, none)) ∧
      (s.done.isSome = false →
        (Service.Open s).2 = none ∧ (Service.Open s).1.workers = 1 ∧
          (Service.Open s).1.done.isSome = true ∧
          (Service.Open s).1.launched = s.launched + 1) ∧
      (s.done.isSome = true →
        ∃ s1, Service.Close s = some (s1, none) ∧ s1.done = none ∧ s1.workers = 0 ∧
          (Service.Open s1).1.workers = 1 ∧ (Service.Open s1).1.done.isSome = true ∧
          (Service.Open s1).1.launched = s.launched + 1) := by
  obtain ⟨s, rets, he, hs, hcfg, hr, hrun, hcount⟩ :=
    exec_sound c ops _ (NewService_sound cfg w) henabled hpos
  have hen : s.config.Enabled = true := by rw [hcfg]; exact henabled
  have hp : 0 < s.config.CheckInterval := by rw [hcfg]; exact hpos
  have hlaunch : ∀ t : Service σ, t.Sound → t.config.Enabled = true →
      0 < t.config.CheckInterval → t.done.isSome = false →
      (Service.Open t).2 = none ∧ (Service.Open t).1.workers = 1 ∧
        (Service.Open t).1.done.isSome = true ∧
        (Service.Open t).1.launched = t.launched + 1 := by
    intro t ht hten htpos htd
    obtain ⟨hsound, hret, -, hl⟩ := Service.Open_sound t ht htpos
    obtain ⟨hd, hn⟩ := hl hten
    refine ⟨hret, hsound.2.2.1.mpr hd, hd, ?_⟩
    rw [hn, htd]
    simp
  refine ⟨s, rets, he, hr, hs.2.2.2, hs.2.1, hs.2.2.1, hs.1, ?_, ?_, ?_, ?_, ?_, ?_⟩
  · rw [hrun]; rfl
  · rw [hcount]; simp [NewService]
  · intro hd
    simp [Service.Open, hd]
  · intro hd
    have : s.done.isNone = true := by
      cases h : s.done with
      | none => rfl
      | some v => rw [h] at hd; simp at hd
    simp [Service.Close, this]
  · exact hlaunch s hs hen hp
  · intro _
    obtain ⟨s1, hclose, hs1, hcfg1, hstop, hl⟩ := Service.Close_sound s hs
    obtain ⟨hd1, hw1⟩ := hstop hen
    obtain ⟨-, a, b, d⟩ := hlaunch s1 hs1 (by rw [hcfg1]; exact hen) (by rw [hcfg1]; exact hp)
      (by rw [hd1]; rfl)
    exact ⟨s1, hclose, hd1, hw1, a, b, by rw [d, hl]⟩

/-- C7 amended, on an enabled service with check interval 30 after `Open`,
`Open`, a tick, `Close`, `Close`, `Open`: all five calls returned `nil`, one
worker is running, `done` is not `nil`, and two workers have been launched in
all. -/
theorem open_close_single_worker_witness :
    ∃ s rets, exec (Node.collaborators 100)
        [Op.Open, Op.Open, Op.tick, Op.Close, Op.Close, Op.Open]
        (NewService { Enabled := true, CheckInterval := 30 } (scenario [] [])) = some (s, rets) ∧
      (∀ ret ∈ rets, ret = none) ∧ s.panicked = false ∧
      s.workers = 1 ∧ s.wg = 1 ∧ s.done.isSome = true ∧ s.launched = 2 ∧
      Service.Open s = (s, none) := by
  obtain ⟨s, rets, he, hr, hp, -, hiff, hwg, hrun, hcount, hopen, -, -, -⟩ :=
    open_close_single_worker (Node.collaborators 100) { Enabled := true, CheckInterval := 30 }
      (scenario [] []) rfl (by decide) [Op.Open, Op.Open, Op.tick, Op.Close, Op.Close, Op.Open]
  have hd : s.done.isSome = true := hrun.trans (by decide)
  have hw : s.workers = 1 := hiff.mpr hd
  exact ⟨s, rets, he, hr, hp, hw, hwg.trans hw, hd, hcount.trans (by decide), hopen hd⟩

theorem exec_disabled (c : Collaborators σ) (ops : List Op) (s : Service σ)
    (hdis : s.config.Enabled = false) (hw : s.workers = 0) (hp : s.panicked = false) :
    ∃ rets, exec c ops s = some (s, rets) ∧ ∀ ret ∈ rets, ret = none := by
  induction ops with
  | nil => exact ⟨[], rfl, by simp⟩
  | cons op ops ih =>
    obtain ⟨rets, he, hr⟩ := ih
    cases op with
    | Open =>
      have ho : Service.Open s = (s, none) := by simp [Service.Open, hdis]
      refine ⟨none :: rets, by simp [exec, hp, ho, he], ?_⟩
      intro ret hmem
      rcases List.mem_cons.mp hmem with rfl | hmem
      · rfl
      · exact hr ret hmem
    | Close =>
      have hc : Service.Close s = some (s, none) := by simp [Service.Close, hdis]
      refine ⟨none :: rets, by simp [exec, hp, hc, he], ?_⟩
      intro ret hmem
      rcases List.mem_cons.mp hmem with rfl | hmem
      · rfl
      · exact hr ret hmem
    | tick =>
      have ht : Service.tick c s = s := by simp [Service.tick, hw]
      exact ⟨rets, by simp [exec, hp, ht, he], hr⟩

/-- C8. On a service whose configuration has `Enabled` false, after every
sequence of `Open` and `Close` calls (and ticks): every call has returned
`nil`, no worker was launched, `done` is `nil`, and no collaborator method was
called (the trace is empty and the world untouched). -/
theorem disabled_service_inert (c : Collaborators σ) (cfg : Config) (w : σ)
    (hdisabled : cfg.Enabled = false) (ops : List Op) :
    ∃ s rets, exec c ops (NewService cfg w) = some (s, rets) ∧
      (∀ ret ∈ rets, ret = none) ∧
      rets.length = (ops.filter fun op => op != Op.tick).length ∧
      s.launched = 0 ∧ s.workers = 0 ∧ s.done = none ∧
      s.trace = [] ∧ collaboratorCalls s.trace = [] ∧ s.world = w := by
  obtain ⟨rets, he, hr⟩ := exec_disabled c ops (NewService cfg w) hdisabled rfl rfl
  refine ⟨NewService cfg w, rets, he, hr, ?_, rfl, rfl, rfl, rfl, rfl, rfl⟩
  clear hr
  have hp : (NewService cfg w).panicked = false := rfl
  induction ops generalizing rets with
  | nil =>
    simp [exec] at he
    simp [he]
  | cons op ops ih =>
    obtain ⟨rets1, he1, -⟩ := exec_disabled c ops (NewService cfg w) hdisabled rfl rfl
    have hlen := ih rets1 he1
    cases op with
    | Open =>
      have ho : Service.Open (NewService cfg w) = (NewService cfg w, none) := by
        simp [Service.Open, NewService, hdisabled]
      simp [exec, hp, ho, he1] at he
      subst he
      simpa using hlen
    | Close =>
      have hc : Service.Close (NewService cfg w) = some (NewService cfg w, none) := by
        simp [Service.Close, NewService, hdisabled]
      simp [exec, hp, hc, he1] at he
      subst he
      simpa using hlen
    | tick =>
      have ht : Service.tick c (NewService cfg w) = NewService cfg w := by
        simp [Service.tick, NewService]
      simp [exec, hp, ht, he1] at he
      subst he
      simpa using hlen

/-- C8, on a disabled service after `Open`, a tick, `Close`, `Open`. -/
theorem disabled_service_inert_witness :
    ∃ s rets, exec (Node.collaborators 100) [Op.Open, Op.tick, Op.Close, Op.Open]
        (NewService { Enabled := false, CheckInterval := 30 } (scenario [] [])) = some (s, rets) ∧
      (∀ ret ∈ rets, ret = none) ∧
      rets.length = ([Op.Open, Op.tick, Op.Close, Op.Open].filter fun op => op != Op.tick).length ∧
      s.launched = 0 ∧ s.workers = 0 ∧ s.done = none ∧
      s.trace = [] ∧ collaboratorCalls s.trace = [] ∧ s.world = scenario [] [] :=
  disabled_service_inert (Node.collaborators 100) { Enabled := false, CheckInterval := 30 }
    (scenario [] []) rfl [Op.Open, Op.tick, Op.Close, Op.Open]

end Retention

namespace Toml

theorem digitOf_digit (c : Byte) (h : IsDigit c = true) :
    digitOf c = some (c.val - 48) ∧ c.val - 48 < 10 := by
  simp only [IsDigit, Bool.and_eq_true, decide_eq_true_eq] at h
  unfold digitOf
  rw [if_pos h]
  exact ⟨rfl, by omega⟩

theorem le_decimalFrom (ds : List Byte) (n : Nat) : n ≤ decimalFrom n ds := by
  induction ds generalizing n with
  | nil => exact Nat.le_refl _
  | cons c cs ih =>
    have := ih (10 * n + (c.val - 48))
    simp only [decimalFrom, List.foldl_cons] at this ⊢
    omega

/-- On a string of decimal digits the loop of `ParseUint` returns the number
denoted when it fits a `uint64`, and a range error otherwise. -/
theorem parseUintLoop_digits (ds : List Byte) (n : Nat) (hds : ∀ c ∈ ds, IsDigit c = true)
    (hn : n ≤ MaxUint64) :
    parseUintLoop ds n =
      if decimalFrom n ds ≤ MaxUint64 then Except.ok (decimalFrom n ds)
      else Except.error NumError.ErrRange := by
  induction ds generalizing n with
  | nil => simp [parseUintLoop, decimalFrom, hn]
  | cons c cs ih =>
    obtain ⟨hd, hlt⟩ := digitOf_digit c (hds c (List.mem_cons_self _ _))
    have hcs : ∀ c ∈ cs, IsDigit c = true := fun x hx => hds x (List.mem_cons_of_mem _ hx)
    have hstep : decimalFrom n (c :: cs) = decimalFrom (10 * n + (c.val - 48)) cs := rfl
    have hge := le_decimalFrom cs (10 * n + (c.val - 48))
    simp only [parseUintLoop, hd]
    unfold MaxUint64 at hn hge ih ⊢
    rw [if_neg (by omega)]
    by_cases hcut : n ≥ 18446744073709551615 / 10 + 1
    · rw [if_pos hcut, hstep, if_neg (by omega)]
    · rw [if_neg hcut]
      by_cases hfit : 10 * n + (c.val - 48) ≤ 18446744073709551615
      · have h2 : n * 10 % 2 ^ 64 = 10 * n := by omega
        have h1 : (10 * n + (c.val - 48)) % 2 ^ 64 = 10 * n + (c.val - 48) := by omega
        rw [h2, h1, if_neg (by omega), hstep]
        exact ih _ hcs hfit
      · rw [if_pos (by omega), hstep, if_neg (by omega)]

theorem ParseUint_digits (ds : List Byte) (hne : ds ≠ []) (hds : ∀ c ∈ ds, IsDigit c = true) :
    ParseUint ds =
      if decimal ds ≤ MaxUint64 then Except.ok (decimal ds)
      else Except.error NumError.ErrRange := by
  unfold ParseUint
  rw [if_neg hne]
  exact parseUintLoop_digits ds 0 hds (Nat.zero_le _)

/-- The result of `UnmarshalText` once the unit is known, on a numeric part
made of decimal digits. -/
theorem unmarshal_of_unit (s : Nat) (text ds : List Byte) (c : Byte) (mult : Nat)
    (hlast : text.getLast? = some c) (hunit : unitOf text c = Except.ok (mult, ds))
    (hmult : 0 < mult) (hne : ds ≠ []) (hds : ∀ c ∈ ds, IsDigit c = true) :
    Size.UnmarshalText s text =
      if decimal ds * mult ≤ MaxUint64 then (decimal ds * mult, none)
      else (s, some (if decimal ds ≤ MaxUint64 then SizeError.overflow else SizeError.invalid)) := by
  unfold Size.UnmarshalText
  simp only [hlast, hunit, ParseUint_digits ds hne hds]
  by_cases hfit : decimal ds ≤ MaxUint64
  · simp only [if_pos hfit]
    have hdiv : MaxUint64 / mult < decimal ds ↔ MaxUint64 < decimal ds * mult :=
      Nat.div_lt_iff_lt_mul hmult
    by_cases hprod : decimal ds * mult ≤ MaxUint64
    · have h1 : ¬ MaxUint64 / mult < decimal ds := by rw [hdiv]; omega
      have h2 : decimal ds * mult % 2 ^ 64 = decimal ds * mult := by
        apply Nat.mod_eq_of_lt
        unfold MaxUint64 at hprod
        omega
      rw [if_neg h1, if_pos hprod, h2]
    · have h1 : MaxUint64 / mult < decimal ds := by rw [hdiv]; omega
      rw [if_pos h1, if_neg hprod]
  · simp only [if_neg hfit]
    have hprod : ¬ decimal ds * mult ≤ MaxUint64 := by
      intro h
      have : decimal ds ≤ decimal ds * mult := Nat.le_mul_of_pos_right _ hmult
      omega
    rw [if_neg hprod]

/-- C10. For every text made of a non-empty string `ds` of decimal digits
denoting `n`, optionally followed by one suffix byte, `Size.UnmarshalText`
stores `n` (no suffix), `n * 2^10` (`k`, `K`), `n * 2^20` (`m`, `M`) or
`n * 2^30` (`g`, `G`) exactly when that product is at most `2^64 - 1`; when the
product is larger, when the suffix is another non-digit byte, when the text is
empty or when the digit string is empty, it returns an error; whenever it
returns an error the size is unchanged. -/
theorem Size.UnmarshalText_spec (s : Nat) :
    (∀ ds : List Byte, ds ≠ [] → (∀ c ∈ ds, IsDigit c = true) →
      (Size.UnmarshalText s ds =
        if decimal ds ≤ MaxUint64 then (decimal ds, none)
        else (s, some SizeError.invalid)) ∧
      (∀ (c : Byte) (k : Nat),
        ((c = 107 ∨ c = 75) ∧ k = 10) ∨ ((c = 109 ∨ c = 77) ∧ k = 20) ∨
          ((c = 103 ∨ c = 71) ∧ k = 30) →
        Size.UnmarshalText s (ds ++ [c]) =
          if decimal ds * 2 ^ k ≤ MaxUint64 then (decimal ds * 2 ^ k, none)
          else (s, some (if decimal ds ≤ MaxUint64 then SizeError.overflow
            else SizeError.invalid))) ∧
      (∀ c : Byte, IsDigit c = false → c ∉ ([107, 75, 109, 77, 103, 71] : List Byte) →
        Size.UnmarshalText s (ds ++ [c]) = (s, some (SizeError.unknownSuffix c)))) ∧
    Size.UnmarshalText s [] = (s, some SizeError.empty) ∧
    (∀ c : Byte, IsDigit c = false →
      (Size.UnmarshalText s [c]).1 = s ∧ (Size.UnmarshalText s [c]).2 ≠ none) ∧
    (∀ text : List Byte, (Size.UnmarshalText s text).2 ≠ none →
      (Size.UnmarshalText s text).1 = s) := by
  refine ⟨?_, rfl, ?_, ?_⟩
  · intro ds hne hds
    refine ⟨?_, ?_, ?_⟩
    · obtain ⟨init, last, hlast⟩ : ∃ init last, ds = init ++ [last] := by
        rcases List.eq_nil_or_concat ds with h | ⟨init, last, h⟩
        · exact absurd h hne
        · exact ⟨init, last, by rw [h, List.concat_eq_append]⟩
      have hdig : IsDigit last = true := hds last (by rw [hlast]; simp)
      have h := unmarshal_of_unit s ds ds last 1 (by rw [hlast, List.getLast?_concat])
        (by simp [unitOf, hdig]) (by decide) hne hds
      rw [h, Nat.mul_one]
      by_cases hfit : decimal ds ≤ MaxUint64
      · rw [if_pos hfit, if_pos hfit]
      · rw [if_neg hfit, if_neg hfit, if_neg hfit]
    · intro c k hck
      apply unmarshal_of_unit s (ds ++ [c]) ds c (2 ^ k) (List.getLast?_concat ..) _
        (Nat.pos_pow_of_pos _ (by decide)) hne hds
      have d1 : IsDigit (107 : Byte) = false := by decide
      have d2 : IsDigit (75 : Byte) = false := by decide
      have d3 : IsDigit (109 : Byte) = false := by decide
      have d4 : IsDigit (77 : Byte) = false := by decide
      have d5 : IsDigit (103 : Byte) = false := by decide
      have d6 : IsDigit (71 : Byte) = false := by decide
      rcases hck with ⟨hc | hc, hk⟩ | ⟨hc | hc, hk⟩ | ⟨hc | hc, hk⟩ <;>
        subst hc <;> subst hk <;> simp [unitOf, d1, d2, d3, d4, d5, d6]
    · intro c hc hnot
      simp only [List.mem_cons, List.mem_singleton, List.not_mem_nil, or_false, not_or] at hnot
      obtain ⟨h1, h2, h3, h4, h5, h6⟩ := hnot
      unfold Size.UnmarshalText
      simp [List.getLast?_concat, unitOf, hc, h1, h2, h3, h4, h5, h6]
  · intro c hc
    have hlast : ([c] : List Byte).getLast? = some c := rfl
    unfold Size.UnmarshalText
    simp only [hlast, unitOf, hc]
    by_cases h1 : c = 107 ∨ c = 75
    · simp [h1, ParseUint]
    · by_cases h2 : c = 109 ∨ c = 77
      · simp [h1, h2, ParseUint]
      · by_cases h3 : c = 103 ∨ c = 71
        · simp [h1, h2, h3, ParseUint]
        · simp [h1, h2, h3]
  · intro text herr
    unfold Size.UnmarshalText at herr ⊢
    cases hl : text.getLast? with
    | none => rfl
    | some suffix =>
      simp only [hl] at herr ⊢
      cases hu : unitOf text suffix with
      | error e => rfl
      | ok r =>
        obtain ⟨mult, sizeText⟩ := r
        simp only [hu] at herr ⊢
        cases hp : ParseUint sizeText with
        | error e => rfl
        | ok size =>
          simp only [hp] at herr ⊢
          by_cases hov : MaxUint64 / mult < size
          · rw [if_pos hov]
          · rw [if_neg hov] at herr
            exact absurd rfl herr

set_option maxRecDepth 8192 in
/-- C10, on the texts 16g (stored as 16 * 2^30) and 17179869184g (2^34 * 2^30
exceeds the largest uint64: an error, the size stays 7). -/
theorem Size.UnmarshalText_spec_witness :
    Size.UnmarshalText 7 [49, 54, 103] = (17179869184, none) ∧
      Size.UnmarshalText 7 [49, 55, 49, 55, 57, 56, 54, 57, 49, 56, 52, 103] =
        (7, some SizeError.overflow) :=
  ⟨(((Size.UnmarshalText_spec 7).1 [49, 54] (List.cons_ne_nil _ _) (by decide)).2.1 103 30
      (Or.inr (Or.inr ⟨Or.inl rfl, rfl⟩))).trans (by decide),
    (((Size.UnmarshalText_spec 7).1 [49, 55, 49, 55, 57, 56, 54, 57, 49, 56, 52]
      (List.cons_ne_nil _ _) (by decide)).2.1 103 30
      (Or.inr (Or.inr ⟨Or.inl rfl, rfl⟩))).trans (by decide)⟩

end Toml
